import Mathlib

/-!
Verification development for `innvestigate/utils/keras/graph.py`.

The Python source is shallowly embedded.  Tensors are natural-number
identities (the source keys its bookkeeping dictionaries by tensor object
identity, resp. `id(...)`); a layer carries an identity and the
`isinstance(l, keras.layers.InputLayer)` flag used throughout the file;
one executed node is a `(layer, input_tensors, output_tensors)` triple
exactly as produced by `trace_model_execution`.  Python dictionaries are
embedded as association lists (first-match lookup) or as update functions,
fallible operations (`KeyError`, `raise`, `assert`) return `Option` or
`Except`.  Data supplied by the external Keras framework (the per-depth
node registry, the replay invocation log, the fresh tensors minted when a
layer is re-applied) enters as parameters and explicitly stated
hypotheses.
-/

namespace Innvestigate

/-- Tensors are opaque identity-bearing handles. -/
abbrev Tensor := Nat

/-- A layer (operator): an identity plus the input-layer flag. -/
structure Layer where
  lid : Nat
  isInputLayer : Bool
deriving DecidableEq

/-- One executed node `(layer, input_tensors, output_tensors)` as recorded
by `trace_model_execution` (`graph.py` lines 312-383). -/
structure TraceNode where
  layer : Layer
  Xs : List Tensor
  Ys : List Tensor
deriving DecidableEq

/-- `graph.py` lines 375-382 (the no-container branch): the native path
enumerates `model._nodes_by_depth` grouped by ascending depth key
(`sorted(model._nodes_by_depth.keys())`) and then reverses the whole
enumeration (`executed_nodes = reversed(reverse_executed_nodes)`).
`nodesByDepth` is that ascending-depth list of groups. -/
def nativeExecutedNodes (nodesByDepth : List (List TraceNode)) : List TraceNode :=
  nodesByDepth.flatten.reverse

/-- `graph.py` lines 390-395, the loop over `reversed(list(executed_nodes))`:
keep a node iff every one of its output tensors is currently in
`used_as_input`, and if kept extend `used_as_input` by its input tensors. -/
def pruneRev (used : List Tensor) : List TraceNode → List TraceNode
  | [] => []
  | n :: rest =>
    if n.Ys.all (fun y => used.contains y) then
      n :: pruneRev (used ++ n.Xs) rest
    else
      pruneRev used rest

/-- `graph.py` lines 390-396: dead-node pruning.  `used_as_input` is seeded
with the true outputs, the execution list is walked in reverse, and the kept
nodes are re-reversed into forward order (`list(reversed(tmp))`). -/
def pruneNodes (outputs : List Tensor) (nodes : List TraceNode) : List TraceNode :=
  (pruneRev outputs nodes.reverse).reverse

/-- `NoBackEdge a b`: node `a` consumes nothing that node `b` produces. -/
def NoBackEdge (a b : TraceNode) : Prop := ∀ t ∈ a.Xs, t ∉ b.Ys

instance : DecidableRel NoBackEdge := fun a b =>
  inferInstanceAs (Decidable (∀ t ∈ a.Xs, t ∉ b.Ys))

/-- A node list is a valid topological order: every node occurs strictly
after all nodes producing any of its input tensors.  Equivalently, no node
consumes a tensor produced at its own or any later position. -/
def IsTopo (l : List TraceNode) : Prop :=
  l.Pairwise NoBackEdge ∧ ∀ n ∈ l, NoBackEdge n n

instance (l : List TraceNode) : Decidable (IsTopo l) :=
  inferInstanceAs (Decidable (_ ∧ _))

theorem pruneRev_sublist (used : List Tensor) (l : List TraceNode) :
    List.Sublist (pruneRev used l) l := by
  induction l generalizing used with
  | nil => simp [pruneRev]
  | cons n rest ih =>
    simp only [pruneRev]
    split
    · exact (ih (used ++ n.Xs)).cons₂ n
    · exact (ih used).cons n

theorem pruneNodes_sublist (outputs : List Tensor) (nodes : List TraceNode) :
    List.Sublist (pruneNodes outputs nodes) nodes := by
  have h := (pruneRev_sublist outputs nodes.reverse).reverse
  simpa [pruneNodes] using h

theorem isTopo_sublist {l₁ l₂ : List TraceNode} (hs : List.Sublist l₁ l₂) (h : IsTopo l₂) :
    IsTopo l₁ :=
  ⟨h.1.sublist hs, fun n hn => h.2 n (hs.subset hn)⟩

/-- The guarantee the Keras `_nodes_by_depth` registry gives for the native
path: with groups listed by ascending depth (depth 0 holds the output-side
nodes), a node's inputs are produced only by nodes of strictly greater
depth.  Stated contrapositively: whenever group index `i ≤ j`, no node of
group `j` consumes a tensor produced by a node of group `i`. -/
def DepthOK (groups : List (List TraceNode)) : Prop :=
  ∀ i j : Fin groups.length, i ≤ j →
    ∀ a ∈ groups.get i, ∀ b ∈ groups.get j, NoBackEdge b a

instance (groups : List (List TraceNode)) : Decidable (DepthOK groups) :=
  inferInstanceAs (Decidable (∀ _, _))

theorem nativeExecutedNodes_isTopo {groups : List (List TraceNode)}
    (h : DepthOK groups) : IsTopo (nativeExecutedNodes groups) := by
  constructor
  · rw [nativeExecutedNodes, List.pairwise_reverse, List.pairwise_flatten]
    constructor
    · intro g hg
      rw [List.mem_iff_get] at hg
      obtain ⟨i, rfl⟩ := hg
      rw [List.pairwise_iff_get]
      intro a b hab
      exact h i i (le_refl i) _ (List.get_mem _ _ _) _ (List.get_mem _ _ _)
    · rw [List.pairwise_iff_get]
      intro i j hij a ha b hb
      exact h i j (le_of_lt hij) a ha b hb
  · intro n hn
    rw [nativeExecutedNodes, List.mem_reverse, List.mem_flatten] at hn
    obtain ⟨g, hg, hng⟩ := hn
    rw [List.mem_iff_get] at hg
    obtain ⟨i, rfl⟩ := hg
    exact h i i (le_refl i) n hng n hng

/-! ## BottleneckDetector: `get_bottleneck_tensors` (`graph.py` 536-583) -/

/-- `forward_connections`: a Python dict from tensor to the list of tensors
forward-connected to it, embedded as an association list with first-match
lookup (dict keys are unique; new keys append at the end). -/
abbrev FCMap := List (Tensor × List Tensor)

def fcLookup (m : FCMap) (k : Tensor) : Option (List Tensor) :=
  (m.find? (fun p => p.1 == k)).map (fun p => p.2)

/-- `graph.py` 549-553: `forward_connections[x] += Ys` when the key is
present, else `forward_connections[x] = list(Ys)`. -/
def fcAppend (m : FCMap) (k : Tensor) (ys : List Tensor) : FCMap :=
  if (m.find? (fun p => p.1 == k)).isSome then
    m.map (fun p => if p.1 == k then (p.1, p.2 ++ ys) else p)
  else
    m ++ [(k, ys)]

/-- `graph.py` 543-553: build `forward_connections` over the execution
list, skipping `InputLayer` nodes. -/
def buildForwardConnections (execList : List TraceNode) : FCMap :=
  execList.foldl
    (fun acc n =>
      if n.layer.isInputLayer then acc
      else n.Xs.foldl (fun a x => fcAppend a x n.Ys) acc)
    []

/-- Python `dict[key] = True` used as a set: insert the key if absent
(keys stay unique, insertion order at the end). -/
def ocInsert (s : List Tensor) (t : Tensor) : List Tensor :=
  if s.contains t then s else s ++ [t]

/-- `graph.py` 568-570: `for y in Ys: assert y in open_connections;
del open_connections[y]` — `none` models the `AssertionError`. -/
def removeYs : List Tensor → List Tensor → Option (List Tensor)
  | [], s => some s
  | y :: ys, s => if s.contains y then removeYs ys (s.erase y) else none

/-- `graph.py` 578-581: re-open the forward connections of every output
tensor that is not itself a final graph output; `none` models the
`KeyError` when a tensor has no forward connections. -/
def reopenYs (fc : FCMap) (outputs : List Tensor) :
    List Tensor → List Tensor → Option (List Tensor)
  | [], s => some s
  | y :: ys, s =>
    if outputs.contains y then reopenYs fc outputs ys s
    else
      match fcLookup fc y with
      | none => none
      | some cs => reopenYs fc outputs ys (cs.foldl ocInsert s)

/-- `graph.py` 572-576: when the open set has just become empty and the
node has exactly one input, add `Xs[0]` and `Ys[0]` to the result set
(both additions are guarded by `len(Xs) == 1` in the source; `none`
models the `IndexError` on `Ys[0]` for an output-less node). -/
def markRet (n : TraceNode) (opens₁ ret : List Tensor) : Option (List Tensor) :=
  if opens₁.isEmpty && n.Xs.length == 1 then
    match n.Xs.head?, n.Ys.head? with
    | some x0, some y0 => some (ocInsert (ocInsert ret x0) y0)
    | _, _ => none
  else some ret

/-- `graph.py` 561-581: the main walk.  For each non-`InputLayer` node:
remove its outputs from the open set (asserted present), perform the
bottleneck marking, then re-open the forward connections of its
non-final outputs. -/
def bottleneckGo (fc : FCMap) (outputs : List Tensor) :
    List TraceNode → List Tensor → List Tensor → Option (List Tensor)
  | [], _, ret => some ret
  | n :: rest, opens, ret =>
    if n.layer.isInputLayer then bottleneckGo fc outputs rest opens ret
    else
      (removeYs n.Ys opens).bind fun opens₁ =>
      (markRet n opens₁ ret).bind fun ret₁ =>
      (reopenYs fc outputs n.Ys opens₁).bind fun opens₂ =>
      bottleneckGo fc outputs rest opens₂ ret₁

/-- `graph.py` 555-558: seed `open_connections` from the forward
connections of every model input. -/
def seedOpen (fc : FCMap) : List Tensor → List Tensor → Option (List Tensor)
  | [], s => some s
  | x :: xs, s =>
    match fcLookup fc x with
    | none => none
    | some cs => seedOpen fc xs (cs.foldl ocInsert s)

/-- `graph.py` 536-583: `get_bottleneck_tensors(inputs, outputs,
execution_list)`.  The returned bottleneck set is an insertion-ordered
duplicate-free list; `none` models the exception paths. -/
def get_bottleneck_tensors (inputs outputs : List Tensor)
    (execList : List TraceNode) : Option (List Tensor) :=
  let fc := buildForwardConnections execList
  (seedOpen fc inputs []).bind fun opens =>
    bottleneckGo fc outputs execList opens []

theorem mem_ocInsert_of_mem {s : List Tensor} {t : Tensor} (u : Tensor)
    (h : t ∈ s) : t ∈ ocInsert s u := by
  unfold ocInsert
  split
  · exact h
  · exact List.mem_append_left _ h

theorem mem_ocInsert_self (s : List Tensor) (t : Tensor) : t ∈ ocInsert s t := by
  unfold ocInsert
  split
  · next hc => exact List.elem_iff.mp hc
  · exact List.mem_append_right _ (List.mem_singleton.mpr rfl)

theorem markRet_subset {n : TraceNode} {opens₁ ret ret₁ : List Tensor}
    (h : markRet n opens₁ ret = some ret₁) : ∀ t ∈ ret, t ∈ ret₁ := by
  unfold markRet at h
  split at h
  · split at h
    · next x0 y0 _ _ =>
      injection h with h
      subst h
      intro t ht
      exact mem_ocInsert_of_mem _ (mem_ocInsert_of_mem _ ht)
    · exact Option.noConfusion h
  · injection h with h
    subst h
    exact fun t ht => ht

theorem bottleneckGo_mono (fc : FCMap) (outs : List Tensor) :
    ∀ (l : List TraceNode) (opens ret res : List Tensor) (t : Tensor),
      t ∈ ret → bottleneckGo fc outs l opens ret = some res → t ∈ res := by
  intro l
  induction l with
  | nil =>
    intro opens ret res t ht h
    rw [bottleneckGo] at h
    cases h
    exact ht
  | cons n rest ih =>
    intro opens ret res t ht h
    rw [bottleneckGo] at h
    split at h
    · exact ih _ _ _ _ ht h
    · simp only [Option.bind_eq_some] at h
      obtain ⟨opens₁, _, ret₁, h2, opens₂, _, h4⟩ := h
      exact ih _ _ _ _ (markRet_subset h2 t ht) h4

/-- The interior chain: operator `i` maps tensor `i` to tensor `i + 1`. -/
def chainNode (i : Nat) : TraceNode := ⟨⟨i + 1, false⟩, [i], [i + 1]⟩

/-- A strictly sequential chain of `N` single-input operators behind one
input layer producing tensor `0`; the model output is tensor `N`. -/
def chainExec (N : Nat) : List TraceNode :=
  ⟨⟨0, true⟩, [], [0]⟩ :: (List.range N).map chainNode

/-- One input layer, two parallel single-input branches, one two-input
merge node: the diamond graph. -/
def diamondExec : List TraceNode :=
  [⟨⟨0, true⟩, [], [0]⟩, ⟨⟨1, false⟩, [0], [1]⟩,
   ⟨⟨2, false⟩, [0], [2]⟩, ⟨⟨3, false⟩, [1, 2], [3]⟩]

theorem bottleneckGo_chain_step (fc : FCMap) (outs : List Tensor) (i : Nat)
    (rest : List TraceNode) (r : List Tensor) :
    bottleneckGo fc outs (chainNode i :: rest) [i + 1] r =
      (reopenYs fc outs [i + 1] []).bind fun opens₂ =>
        bottleneckGo fc outs rest opens₂ (ocInsert (ocInsert r i) (i + 1)) := by
  have hrem : removeYs [i + 1] [i + 1] = some [] := by
    simp [removeYs]
  rw [bottleneckGo, if_neg (by simp [chainNode])]
  show (removeYs [i + 1] [i + 1]).bind _ = _
  rw [hrem, Option.some_bind]
  have hmark : markRet (chainNode i) [] r =
      some (ocInsert (ocInsert r i) (i + 1)) := by
    simp [markRet, chainNode]
  rw [hmark, Option.some_bind]
  rfl

theorem chainGo (fc : FCMap) (N : Nat)
    (hfc : ∀ j, j < N → fcLookup fc j = some [j + 1]) :
    ∀ (m i : Nat) (r : List Tensor), 1 ≤ m → i + m = N →
      ∃ res,
        bottleneckGo fc [N] ((List.range' i m).map chainNode) [i + 1] r = some res ∧
        (∀ t, i ≤ t → t ≤ N → t ∈ res) ∧ (∀ t ∈ r, t ∈ res) := by
  intro m
  induction m with
  | zero => intro i r h1 _; omega
  | succ m ih =>
    intro i r _ hiN
    rw [List.range'_succ, List.map_cons, bottleneckGo_chain_step]
    by_cases hm : m = 0
    · subst hm
      have hN : i + 1 = N := by omega
      have hre : reopenYs fc [N] [i + 1] [] = some [] := by
        have hc : (([N] : List Tensor).contains (i + 1)) = true := by
          simp [hN]
        rw [reopenYs, if_pos hc]
        rfl
      rw [hre, Option.some_bind]
      refine ⟨ocInsert (ocInsert r i) (i + 1), by simp [bottleneckGo], ?_, ?_⟩
      · intro t ht1 ht2
        have : t = i ∨ t = i + 1 := by omega
        rcases this with rfl | rfl
        · exact mem_ocInsert_of_mem _ (mem_ocInsert_self _ _)
        · exact mem_ocInsert_self _ _
      · intro t ht
        exact mem_ocInsert_of_mem _ (mem_ocInsert_of_mem _ ht)
    · have hm1 : 1 ≤ m := Nat.one_le_iff_ne_zero.mpr hm
      have hlt : i + 1 < N := by omega
      have hre : reopenYs fc [N] [i + 1] [] = some [i + 2] := by
        have hc : ¬((([N] : List Tensor).contains (i + 1)) = true) := by
          simp
          exact Nat.ne_of_lt hlt
        rw [reopenYs, if_neg hc, hfc (i + 1) hlt]
        simp [reopenYs, ocInsert]
      rw [hre, Option.some_bind]
      obtain ⟨res, hgo, hmem, hmono⟩ :=
        ih (i + 1) (ocInsert (ocInsert r i) (i + 1)) hm1 (by omega)
      refine ⟨res, ?_, ?_, ?_⟩
      · have h2 : i + 2 = i + 1 + 1 := by omega
        rw [h2]
        exact hgo
      · intro t ht1 ht2
        rcases Nat.eq_or_lt_of_le ht1 with rfl | hlt2
        · exact hmono _ (mem_ocInsert_of_mem _ (mem_ocInsert_self _ _))
        · exact hmem t (by omega) ht2
      · intro t ht
        exact hmono _ (mem_ocInsert_of_mem _ (mem_ocInsert_of_mem _ ht))

theorem buildFC_chain (N : Nat) :
    buildForwardConnections (chainExec N) =
      (List.range N).map (fun i => (i, [i + 1])) := by
  have key : ∀ n : Nat,
      List.foldl
        (fun acc nd =>
          if nd.layer.isInputLayer then acc
          else nd.Xs.foldl (fun a x => fcAppend a x nd.Ys) acc)
        [] ((List.range n).map chainNode) =
      (List.range n).map (fun i => (i, [i + 1])) := by
    intro n
    induction n with
    | zero => rfl
    | succ n ih =>
      rw [List.range_succ, List.map_append, List.foldl_append, ih]
      have hfind : List.find? (fun p => p.1 == n)
          ((List.range n).map fun i => (i, [i + 1])) = none := by
        rw [List.find?_eq_none]
        intro x hx
        simp only [List.mem_map, List.mem_range] at hx
        obtain ⟨i, hi, rfl⟩ := hx
        simp only [beq_iff_eq]
        omega
      simp only [List.map_cons, List.map_nil, List.foldl_cons, List.foldl_nil,
        chainNode]
      have hni : ¬((Layer.mk (n + 1) false).isInputLayer = true) :=
        Bool.false_ne_true
      rw [if_neg hni]
      have hns : ¬((List.find? (fun p => p.1 == n)
          ((List.range n).map fun i => (i, [i + 1]))).isSome = true) := by
        rw [hfind]
        simp
      rw [fcAppend, if_neg hns]
      rw [List.map_append]
      rfl
  unfold chainExec buildForwardConnections
  rw [List.foldl_cons, if_pos rfl]
  exact key N

theorem fcLookup_chain (N j : Nat) (hj : j < N) :
    fcLookup ((List.range N).map (fun i => (i, [i + 1]))) j = some [j + 1] := by
  induction N with
  | zero => omega
  | succ n ih =>
    unfold fcLookup at ih ⊢
    rw [List.range_succ, List.map_append, List.find?_append]
    by_cases hjn : j < n
    · have hthis := ih hjn
      cases hfind : List.find? (fun p => p.1 == j)
          ((List.range n).map fun i => (i, [i + 1])) with
      | none => rw [hfind] at hthis; simp at hthis
      | some v =>
        rw [hfind] at hthis
        simpa using hthis
    · have hj' : j = n := by omega
      subst hj'
      have hnone : List.find? (fun p => p.1 == j)
          ((List.range j).map fun i => (i, [i + 1])) = none := by
        rw [List.find?_eq_none]
        intro x hx
        simp only [List.mem_map, List.mem_range] at hx
        obtain ⟨i, hi, rfl⟩ := hx
        simp only [beq_iff_eq]
        omega
      rw [hnone]
      simp

/-- C5: `get_bottleneck_tensors` marks, at each node where the open set
becomes empty immediately after removing that node's outputs and the node
has exactly one input, that input tensor and that node's output tensor;
consequently the diamond graph (one input, two parallel branches, a merge
node) has no bottleneck tensors, while on a strictly sequential chain of
`N` single-input operators every interior tensor `1 … N - 1` is marked a
bottleneck. -/
theorem bottleneck_diamond_chain :
    (∀ (fc : FCMap) (outs : List Tensor) (n : TraceNode)
        (rest : List TraceNode) (opens ret res : List Tensor) (x0 : Tensor),
        n.layer.isInputLayer = false →
        removeYs n.Ys opens = some [] →
        n.Xs = [x0] →
        bottleneckGo fc outs (n :: rest) opens ret = some res →
        x0 ∈ res ∧ ∃ y0, n.Ys.head? = some y0 ∧ y0 ∈ res) ∧
    get_bottleneck_tensors [0] [3] diamondExec = some [] ∧
    (∀ N, 1 ≤ N → ∀ t : Nat, 1 ≤ t → t ≤ N - 1 →
      ∃ res, get_bottleneck_tensors [0] [N] (chainExec N) = some res ∧
        t ∈ res) := by
  refine ⟨?_, by decide, ?_⟩
  · intro fc outs n rest opens ret res x0 hin hrem hxs h
    have hni : ¬(n.layer.isInputLayer = true) := by
      rw [hin]
      exact Bool.false_ne_true
    rw [bottleneckGo, if_neg hni, hrem, Option.some_bind] at h
    cases hy : n.Ys.head? with
    | none =>
      have hmark : markRet n [] ret = none := by
        rw [markRet, hxs, hy]
        simp
      rw [hmark] at h
      simp at h
    | some y0 =>
      have hmark : markRet n [] ret = some (ocInsert (ocInsert ret x0) y0) := by
        rw [markRet, hxs, hy]
        simp
      rw [hmark, Option.some_bind] at h
      cases hre : reopenYs fc outs n.Ys [] with
      | none => rw [hre] at h; simp at h
      | some opens₂ =>
        rw [hre, Option.some_bind] at h
        refine ⟨?_, y0, rfl, ?_⟩
        · exact bottleneckGo_mono fc outs rest opens₂ _ res x0
            (mem_ocInsert_of_mem _ (mem_ocInsert_self _ _)) h
        · exact bottleneckGo_mono fc outs rest opens₂ _ res y0
            (mem_ocInsert_self _ _) h
  · intro N hN t ht1 ht2
    set fc := buildForwardConnections (chainExec N) with hfcdef
    have hfc : ∀ j, j < N → fcLookup fc j = some [j + 1] := by
      intro j hj
      rw [hfcdef, buildFC_chain]
      exact fcLookup_chain N j hj
    obtain ⟨res, hgo, hmem, _⟩ := chainGo fc N hfc N 0 [] hN (by omega)
    refine ⟨res, ?_, hmem t (by omega) (by omega)⟩
    have hseed : seedOpen fc [0] [] = some [1] := by
      rw [seedOpen, hfc 0 hN]
      simp [seedOpen, ocInsert]
    show (seedOpen fc [0] []).bind
        (fun opens => bottleneckGo fc [N] (chainExec N) opens []) = some res
    rw [hseed, Option.some_bind, chainExec, bottleneckGo, if_pos rfl,
      List.range_eq_range']
    exact hgo

/-! ## ReversePropagationEngine: reversed-tensor bookkeeping
(`graph.py` 656-701, inside `reverse_model`) -/

/-- Reversed tensor values: elementwise-indexed numeric tensors, so that
"elementwise sum" (the Keras `Add` merge layer) is expressible. -/
abbrev TVec := Nat → Int

/-- The Keras `Add` merge layer applied to a list of tensors
(`keras.layers.Add()(tmp["tensors"])` at `graph.py` 686): the elementwise
sum of all of them. -/
def addLayer (vs : List TVec) : TVec := fun i => (vs.map (fun v => v i)).sum

/-- One entry of the `reversed_tensors` dictionary (`graph.py` 663-675):
the Python dict may hold the keys `"id"`, `"tensor"`, `"tensors"` and
`"final_tensor"`; an absent key is `none`. -/
structure REntry where
  rid : Int × Nat
  tensor : Option TVec
  tensors : Option (List TVec)
  finalTensor : Option TVec

/-- The `reversed_tensors` dictionary, keyed by tensor identity. -/
abbrev RState := Tensor → Option REntry

def emptyRState : RState := fun _ => none

def rset (s : RState) (X : Tensor) (e : REntry) : RState :=
  fun t => if t = X then some e else s t

/-- Configuration of `get_reversed_tensor`: the
`project_bottleneck_tensors` / `clip_all_reversed_tensors` options and the
bottleneck set of `reverse_model`; the `ilayers.Project` / `ilayers.Clip`
layers are external collaborators and enter as opaque functions. -/
structure RConfig where
  projectEnabled : Bool
  projectFn : TVec → TVec
  clipEnabled : Bool
  clipFn : TVec → TVec
  bottlenecks : Tensor → Bool

inductive RErr where
  | wrongOrder
  | keyError
deriving DecidableEq

/-- `graph.py` 663-675, `add_reversed_tensor(i, X, reversed_X)`:
a fresh entry records `{"id": (reverse_id, i), "tensor": reversed_X}`;
an existing entry holding both `"tensor"` and `"tensors"` raises
`"Wrong order, tensors already aggregated!"`; one holding `"tensor"`
moves it into a two-element `"tensors"` list; otherwise the contribution
is appended to `"tensors"` (a `KeyError` if that key is absent too). -/
def add_reversed_tensor (reverseId : Int) (i : Nat) (X : Tensor)
    (reversedX : TVec) (s : RState) : Except RErr RState :=
  match s X with
  | none => .ok (rset s X ⟨(reverseId, i), some reversedX, none, none⟩)
  | some tmp =>
    if tmp.tensor.isSome && tmp.tensors.isSome then .error .wrongOrder
    else
      match tmp.tensor with
      | some v => .ok (rset s X { tmp with tensor := none, tensors := some [v, reversedX] })
      | none =>
        match tmp.tensors with
        | some vs => .ok (rset s X { tmp with tensors := some (vs ++ [reversedX]) })
        | none => .error .keyError

/-- `graph.py` 659-679, `add_reversed_tensors(reverse_id, tensors_list,
reversed_tensors_list)`: enumerate `zip(tensors_list,
reversed_tensors_list)` and deliver each pair. -/
def addRevGo (reverseId : Int) : List (Tensor × TVec) → Nat → RState → Except RErr RState
  | [], _, s => .ok s
  | (X, rX) :: rest, i, s =>
    match add_reversed_tensor reverseId i X rX s with
    | .ok s1 => addRevGo reverseId rest (i + 1) s1
    | .error e => .error e

def add_reversed_tensors (reverseId : Int) (tensorsList : List Tensor)
    (reversedList : List TVec) (s : RState) : Except RErr RState :=
  addRevGo reverseId (tensorsList.zip reversedList) 0 s

/-- `graph.py` 681-701, `get_reversed_tensor(tensor)`: return the cached
`"final_tensor"` if present; otherwise aggregate — a `"tensors"` list goes
through the Keras `Add` layer, a single `"tensor"` passes through — then
apply the optional bottleneck projection and global clipping, cache and
return. -/
def get_reversed_tensor (cfg : RConfig) (tensor : Tensor) (s : RState) :
    Except RErr (TVec × RState) :=
  match s tensor with
  | none => .error .keyError
  | some tmp =>
    match tmp.finalTensor with
    | some f => .ok (f, s)
    | none =>
      match
        (match tmp.tensor with
         | none => tmp.tensors.map addLayer
         | some v => some v) with
      | none => .error .keyError
      | some f0 =>
        let f1 := if cfg.projectEnabled && cfg.bottlenecks tensor then cfg.projectFn f0 else f0
        let f2 := if cfg.clipEnabled then cfg.clipFn f1 else f1
        .ok (f2, rset s tensor { tmp with finalTensor := some f2 })

/-- An interaction with the reversed-tensor table: one
`add_reversed_tensors` call or one `get_reversed_tensor` call. -/
inductive ROp where
  | addT (reverseId : Int) (ts : List Tensor) (rvs : List TVec)
  | getT (t : Tensor)

/-- Run a sequence of table interactions from a state, collecting the
values returned by the `get` calls. -/
def runOps (cfg : RConfig) : List ROp → RState → Except RErr (RState × List TVec)
  | [], s => .ok (s, [])
  | .addT rid ts rvs :: rest, s =>
    match add_reversed_tensors rid ts rvs s with
    | .ok s1 => runOps cfg rest s1
    | .error e => .error e
  | .getT t :: rest, s =>
    match get_reversed_tensor cfg t s with
    | .ok (v, s1) =>
      match runOps cfg rest s1 with
      | .ok (s2, outs) => .ok (s2, v :: outs)
      | .error e => .error e
    | .error e => .error e

/-- The key invariant on one entry: exactly one of `"tensor"` and
`"tensors"` is present. -/
def EntryXor (e : REntry) : Prop := e.tensor.isSome ↔ ¬e.tensors.isSome

def StateInv (s : RState) : Prop := ∀ t e, s t = some e → EntryXor e

theorem stateInv_empty : StateInv emptyRState := by
  intro t e h
  exact Option.noConfusion h

theorem stateInv_rset {s : RState} {X : Tensor} {e : REntry}
    (hs : StateInv s) (he : EntryXor e) : StateInv (rset s X e) := by
  intro t e2 h
  unfold rset at h
  split at h
  · injection h with h
    subst h
    exact he
  · exact hs t e2 h

theorem add_reversed_tensor_eq_of_none {s : RState} {X : Tensor}
    (h : s X = none) (rid : Int) (i : Nat) (rX : TVec) :
    add_reversed_tensor rid i X rX s =
      .ok (rset s X ⟨(rid, i), some rX, none, none⟩) := by
  unfold add_reversed_tensor
  rw [h]

theorem add_reversed_tensor_eq_of_tensor {s : RState} {X : Tensor}
    {tmp : REntry} {v : TVec} (h : s X = some tmp) (htn : tmp.tensor = some v)
    (hts : tmp.tensors = none) (rid : Int) (i : Nat) (rX : TVec) :
    add_reversed_tensor rid i X rX s =
      .ok (rset s X { tmp with tensor := none, tensors := some [v, rX] }) := by
  unfold add_reversed_tensor
  rw [h]
  dsimp only
  simp [htn, hts]

theorem add_reversed_tensor_eq_of_tensors {s : RState} {X : Tensor}
    {tmp : REntry} {vs : List TVec} (h : s X = some tmp)
    (htn : tmp.tensor = none) (hts : tmp.tensors = some vs)
    (rid : Int) (i : Nat) (rX : TVec) :
    add_reversed_tensor rid i X rX s =
      .ok (rset s X { tmp with tensors := some (vs ++ [rX]) }) := by
  unfold add_reversed_tensor
  rw [h]
  dsimp only
  simp [htn, hts]

theorem add_reversed_tensor_ok {s : RState} (hs : StateInv s)
    (reverseId : Int) (i : Nat) (X : Tensor) (rX : TVec) :
    ∃ s1, add_reversed_tensor reverseId i X rX s = .ok s1 ∧ StateInv s1 := by
  cases hX : s X with
  | none =>
    refine ⟨_, add_reversed_tensor_eq_of_none hX reverseId i rX,
      stateInv_rset hs ?_⟩
    unfold EntryXor
    simp
  | some tmp =>
    have hxor : EntryXor tmp := hs X tmp hX
    cases htn : tmp.tensor with
    | some v =>
      have hts : tmp.tensors = none := by
        have h1 : ¬tmp.tensors.isSome = true := hxor.mp (by simp [htn])
        simpa [Option.not_isSome_iff_eq_none] using h1
      refine ⟨_, add_reversed_tensor_eq_of_tensor hX htn hts reverseId i rX,
        stateInv_rset hs ?_⟩
      unfold EntryXor
      simp
    | none =>
      cases hts : tmp.tensors with
      | some vs =>
        refine ⟨_, add_reversed_tensor_eq_of_tensors hX htn hts reverseId i rX,
          stateInv_rset hs ?_⟩
        unfold EntryXor
        simp [htn]
      | none =>
        exfalso
        have h1 : tmp.tensor.isSome = true := hxor.mpr (by simp [hts])
        simp [htn] at h1

theorem addRevGo_ok (reverseId : Int) :
    ∀ (ps : List (Tensor × TVec)) (i : Nat) (s : RState), StateInv s →
      ∃ s1, addRevGo reverseId ps i s = .ok s1 ∧ StateInv s1 := by
  intro ps
  induction ps with
  | nil => exact fun i s hs => ⟨s, rfl, hs⟩
  | cons p rest ih =>
    intro i s hs
    obtain ⟨X, rX⟩ := p
    obtain ⟨s1, h1, hs1⟩ := add_reversed_tensor_ok hs reverseId i X rX
    obtain ⟨s2, h2, hs2⟩ := ih (i + 1) s1 hs1
    refine ⟨s2, ?_, hs2⟩
    rw [addRevGo, h1]
    exact h2

theorem get_reversed_tensor_eq_cached {s : RState} {t : Tensor}
    {tmp : REntry} {f : TVec} (cfg : RConfig) (h : s t = some tmp)
    (hf : tmp.finalTensor = some f) :
    get_reversed_tensor cfg t s = .ok (f, s) := by
  unfold get_reversed_tensor
  rw [h]
  dsimp only
  rw [hf]

theorem get_reversed_tensor_eq_of_tensor {s : RState} {t : Tensor}
    {tmp : REntry} {v : TVec} (cfg : RConfig) (h : s t = some tmp)
    (hf : tmp.finalTensor = none) (htn : tmp.tensor = some v)
    (hp : cfg.projectEnabled = false) (hc : cfg.clipEnabled = false) :
    get_reversed_tensor cfg t s =
      .ok (v, rset s t { tmp with finalTensor := some v }) := by
  unfold get_reversed_tensor
  rw [h]
  dsimp only
  rw [hf, htn]
  simp [hp, hc]

theorem get_reversed_tensor_eq_of_tensors {s : RState} {t : Tensor}
    {tmp : REntry} {vs : List TVec} (cfg : RConfig) (h : s t = some tmp)
    (hf : tmp.finalTensor = none) (htn : tmp.tensor = none)
    (hts : tmp.tensors = some vs)
    (hp : cfg.projectEnabled = false) (hc : cfg.clipEnabled = false) :
    get_reversed_tensor cfg t s =
      .ok (addLayer vs, rset s t { tmp with finalTensor := some (addLayer vs) }) := by
  unfold get_reversed_tensor
  rw [h]
  dsimp only
  rw [hf, htn, hts]
  simp [hp, hc]

theorem get_reversed_tensor_ok {s : RState} (hs : StateInv s)
    (cfg : RConfig) (t : Tensor) :
    get_reversed_tensor cfg t s = .error .keyError ∨
    ∃ v s1, get_reversed_tensor cfg t s = .ok (v, s1) ∧ StateInv s1 := by
  unfold get_reversed_tensor
  cases hX : s t with
  | none => exact Or.inl rfl
  | some tmp =>
    dsimp only
    have hxor : EntryXor tmp := hs t tmp hX
    cases hf : tmp.finalTensor with
    | some f => exact Or.inr ⟨f, s, rfl, hs⟩
    | none =>
      dsimp only
      cases htn : tmp.tensor with
      | some v =>
        dsimp only
        refine Or.inr ⟨_, _, rfl, stateInv_rset hs ?_⟩
        unfold EntryXor at hxor ⊢
        simp only [htn] at hxor
        simpa using hxor
      | none =>
        cases hts : tmp.tensors with
        | some vs =>
          refine Or.inr ⟨_, _, rfl, stateInv_rset hs ?_⟩
          unfold EntryXor
          simp
        | none => exact Or.inl rfl

theorem runOps_inv (cfg : RConfig) :
    ∀ (ops : List ROp) (s : RState), StateInv s →
      (∀ s2 outs, runOps cfg ops s = .ok (s2, outs) → StateInv s2) ∧
      runOps cfg ops s ≠ .error .wrongOrder := by
  intro ops
  induction ops with
  | nil =>
    intro s hs
    constructor
    · intro s2 outs h
      rw [runOps] at h
      injection h with h
      rw [Prod.mk.injEq] at h
      obtain ⟨h1, _⟩ := h
      subst h1
      exact hs
    · intro h
      rw [runOps] at h
      exact Except.noConfusion h
  | cons op rest ih =>
    intro s hs
    cases op with
    | addT rid ts rvs =>
      obtain ⟨s1, h1, hs1⟩ := addRevGo_ok rid (ts.zip rvs) 0 s hs
      have h1' : add_reversed_tensors rid ts rvs s = .ok s1 := h1
      constructor
      · intro s2 outs h
        rw [runOps, h1'] at h
        exact (ih s1 hs1).1 s2 outs h
      · intro h
        rw [runOps, h1'] at h
        exact (ih s1 hs1).2 h
    | getT t =>
      rcases get_reversed_tensor_ok hs cfg t with herr | ⟨v, s1, hok, hs1⟩
      · constructor
        · intro s2 outs h
          rw [runOps, herr] at h
          exact Except.noConfusion h
        · intro h
          rw [runOps, herr] at h
          injection h with h
          exact RErr.noConfusion h
      · constructor
        · intro s2 outs h
          rw [runOps, hok] at h
          dsimp only at h
          cases hrest : runOps cfg rest s1 with
          | ok p =>
            obtain ⟨s2x, outsx⟩ := p
            rw [hrest] at h
            injection h with h
            rw [Prod.mk.injEq] at h
            obtain ⟨h1, _⟩ := h
            subst h1
            exact (ih s1 hs1).1 _ _ hrest
          | error e =>
            rw [hrest] at h
            exact Except.noConfusion h
        · intro h
          rw [runOps, hok] at h
          dsimp only at h
          cases hrest : runOps cfg rest s1 with
          | ok p =>
            obtain ⟨s2x, outsx⟩ := p
            rw [hrest] at h
            exact Except.noConfusion h
          | error e =>
            rw [hrest] at h
            injection h with h
            subst h
            exact (ih s1 hs1).2 hrest

/-- The constant-one reversed tensor, used in concrete runs. -/
def vOne : TVec := fun _ => 1

/-- Projection and clipping both disabled (`project_bottleneck_tensors =
False`, `clip_all_reversed_tensors = False`). -/
def cfgOff : RConfig := ⟨false, id, false, id, fun _ => false⟩

/-- C10: starting from the empty reversed-tensors table, under any
sequence of `add_reversed_tensors` and `get_reversed_tensor` calls, every
entry holds exactly one of the keys `"tensor"` and `"tensors"` — never
both — and hence the `"Wrong order, tensors already aggregated!"` branch
inside `add_reversed_tensor` is unreachable: the run never fails with
`RErr.wrongOrder`. -/
theorem entry_single_key_invariant (cfg : RConfig) (ops : List ROp) :
    (∀ s2 outs, runOps cfg ops emptyRState = .ok (s2, outs) → StateInv s2) ∧
    runOps cfg ops emptyRState ≠ .error .wrongOrder :=
  runOps_inv cfg ops emptyRState stateInv_empty

/-- Witness for C10: a concrete run — one contribution to tensor `5`
followed by a finalizing read — ends in a state satisfying the exactly-one
invariant, and does not raise the wrong-order error. -/
theorem entry_single_key_invariant_witness :
    StateInv (rset (rset emptyRState 5 ⟨(0, 0), some vOne, none, none⟩) 5
      ⟨(0, 0), some vOne, none, some vOne⟩) ∧
    runOps cfgOff [ROp.addT 0 [5] [vOne], ROp.getT 5] emptyRState ≠
      .error .wrongOrder :=
  ⟨(entry_single_key_invariant cfgOff [ROp.addT 0 [5] [vOne], ROp.getT 5]).1
      (rset (rset emptyRState 5 ⟨(0, 0), some vOne, none, none⟩) 5
        ⟨(0, 0), some vOne, none, some vOne⟩) [vOne] rfl,
   (entry_single_key_invariant cfgOff [ROp.addT 0 [5] [vOne], ROp.getT 5]).2⟩

/-- C4: a tensor receiving exactly two contributions (one from each of two
downstream consumers, delivered by two `add_reversed_tensors` calls) holds
exactly the two recorded contributions `[a, b]` in its entry's `"tensors"`
list, and `get_reversed_tensor` returns their elementwise sum; a tensor
with exactly one contribution gets that contribution passed through
unchanged (projection and clipping disabled). -/
theorem two_contributions_sum (X : Tensor) (a b : TVec) :
    ∃ s1 s2,
      add_reversed_tensors 7 [X] [a] emptyRState = .ok s1 ∧
      add_reversed_tensors 3 [X] [b] s1 = .ok s2 ∧
      (∃ e, s2 X = some e ∧ e.tensors = some [a, b] ∧ e.tensor = none) ∧
      (∃ s3, get_reversed_tensor cfgOff X s2 = .ok (addLayer [a, b], s3)) ∧
      (∀ i, addLayer [a, b] i = a i + b i) ∧
      (∃ s4, get_reversed_tensor cfgOff X s1 = .ok (a, s4)) := by
  refine ⟨rset emptyRState X ⟨(7, 0), some a, none, none⟩,
    rset (rset emptyRState X ⟨(7, 0), some a, none, none⟩) X
      ⟨(7, 0), none, some [a, b], none⟩, rfl, ?_, ?_, ?_, ?_, ?_⟩
  · have hX : (rset emptyRState X ⟨(7, 0), some a, none, none⟩) X =
        some ⟨(7, 0), some a, none, none⟩ := by
      unfold rset
      simp
    have h2 := add_reversed_tensor_eq_of_tensor hX rfl rfl 3 0 b
    show addRevGo 3 [(X, b)] 0 _ = _
    rw [addRevGo, h2]
    rfl
  · refine ⟨⟨(7, 0), none, some [a, b], none⟩, ?_, rfl, rfl⟩
    unfold rset
    simp
  · have hX2 : (rset (rset emptyRState X ⟨(7, 0), some a, none, none⟩) X
        ⟨(7, 0), none, some [a, b], none⟩) X =
        some ⟨(7, 0), none, some [a, b], none⟩ := by
      unfold rset
      simp
    exact ⟨_, get_reversed_tensor_eq_of_tensors cfgOff hX2 rfl rfl rfl rfl rfl⟩
  · intro i
    unfold addLayer
    simp
  · have hX : (rset emptyRState X ⟨(7, 0), some a, none, none⟩) X =
        some ⟨(7, 0), some a, none, none⟩ := by
      unfold rset
      simp
    exact ⟨_, get_reversed_tensor_eq_of_tensor cfgOff hX rfl rfl rfl rfl⟩

/-- C2 (code bug): after an entry is finalized by `get_reversed_tensor`
(which caches `"final_tensor"` but leaves `"tensor"`/`"tensors"` in
place), a further contribution delivered through `add_reversed_tensors`
raises no error at all: it is silently recorded in `"tensors"` while every
subsequent read keeps returning the stale cached value, so the late
contribution is silently ignored (`vOne` instead of the true sum `2` at
every index). -/
theorem finalized_entry_accepts_silently :
    ∃ s1 s2 s3,
      add_reversed_tensors 0 [9] [vOne] emptyRState = .ok s1 ∧
      get_reversed_tensor cfgOff 9 s1 = .ok (vOne, s2) ∧
      add_reversed_tensors 1 [9] [vOne] s2 = .ok s3 ∧
      (∃ e, s3 9 = some e ∧ e.tensors = some [vOne, vOne] ∧
        e.finalTensor = some vOne) ∧
      get_reversed_tensor cfgOff 9 s3 = .ok (vOne, s3) ∧
      addLayer [vOne, vOne] 0 = 2 ∧ vOne 0 = 1 := by
  refine ⟨_, _, _, rfl, rfl, rfl, ⟨⟨(0, 0), none, some [vOne, vOne], some vOne⟩,
    rfl, rfl, rfl⟩, rfl, by decide, rfl⟩

/-! ## ExecutionGraphBuilder: `get_model_execution_trace`
(`graph.py` 401-479) -/

/-- `graph.py` 408-417: assign sequential integer node ids to
non-`InputLayer` trace entries; `InputLayer` entries get `None`. -/
def assignNids : List TraceNode → Nat → List (Option Nat × TraceNode)
  | [], _ => []
  | n :: rest, ctr =>
    if n.layer.isInputLayer then (none, n) :: assignNids rest ctr
    else (some ctr, n) :: assignNids rest (ctr + 1)

/-- `inputs_to_node`: tensor id → list of consuming node ids. -/
abbrev ConsumerMap := List (Tensor × List Nat)

/-- `outputs_to_node`: tensor id → creating node id (`None` possible for
input layers when they are kept). -/
abbrev ProducerMap := List (Tensor × Option Nat)

def cmHasKey (m : ConsumerMap) (k : Tensor) : Bool :=
  (m.find? (fun p => p.1 == k)).isSome

/-- `graph.py` 425-429: `inputs_to_node[Xid].append(nid)` when the key is
present, else `inputs_to_node[Xid] = [nid]`. -/
def cmAppend (m : ConsumerMap) (k : Tensor) (nid : Nat) : ConsumerMap :=
  if cmHasKey m k then
    m.map (fun p => if p.1 == k then (p.1, p.2 ++ [nid]) else p)
  else
    m ++ [(k, [nid])]

/-- `outputs_to_node[Yid] = nid` (`graph.py` 436). -/
def pmSet (m : ProducerMap) (k : Tensor) (v : Option Nat) : ProducerMap :=
  if (m.find? (fun p => p.1 == k)).isSome then
    m.map (fun p => if p.1 == k then (p.1, v) else p)
  else
    m ++ [(k, v)]

/-- `graph.py` 432-436: register the node's output tensors in the producer
map, raising `"Cannot be more than one creating node."` exactly when the
tensor id is found in `inputs_to_node` — the consumer map, not the
producer map. -/
def registerYs (itn : ConsumerMap) (nid : Option Nat) :
    List Tensor → ProducerMap → Option ProducerMap
  | [], otn => some otn
  | y :: ys, otn =>
    if cmHasKey itn y then none
    else registerYs itn nid ys (pmSet otn y nid)

/-- The consumer map after one node: the inputs of a non-input node are
registered before its outputs are checked (`graph.py` 423-429). -/
def itnAfter (nid : Option Nat) (n : TraceNode) (itn : ConsumerMap) :
    ConsumerMap :=
  match nid with
  | some k => n.Xs.foldl (fun acc x => cmAppend acc x k) itn
  | none => itn

/-- `graph.py` 420-436: the lookup-building loop of
`get_model_execution_trace`.  For each id-enriched node: register its
input tensors in the consumer map (non-input nodes only), then — when
`keep_input_layers` or the node has an id — register its outputs with the
creator check.  `none` models the raised exception. -/
def buildLookupsGo (keep : Bool) :
    List (Option Nat × TraceNode) → ConsumerMap → ProducerMap →
    Option (ConsumerMap × ProducerMap)
  | [], itn, otn => some (itn, otn)
  | (nid, n) :: rest, itn, otn =>
    if keep || nid.isSome then
      match registerYs (itnAfter nid n itn) nid n.Ys otn with
      | some otn1 => buildLookupsGo keep rest (itnAfter nid n itn) otn1
      | none => none
    else buildLookupsGo keep rest (itnAfter nid n itn) otn

/-- The producer/consumer lookup construction of
`get_model_execution_trace` (`graph.py` 408-436) as a function of the
execution trace. -/
def get_model_execution_trace_lookups (keep : Bool)
    (trace : List TraceNode) : Option (ConsumerMap × ProducerMap) :=
  buildLookupsGo keep (assignNids trace 0) [] []

/-- A trace in which tensor `1` is produced (appears in `Ys`) by two
distinct nodes and is consumed by nobody. -/
def twoProducerTrace : List TraceNode :=
  [⟨⟨0, true⟩, [], [0]⟩, ⟨⟨1, false⟩, [0], [1]⟩, ⟨⟨2, false⟩, [0], [1]⟩]

/-- C3 counterexample: on a trace where tensor `1` has two producing
nodes, the lookup construction of `get_model_execution_trace` succeeds —
no "more than one creating node" error is raised, because the guard
consults the consumer map. -/
theorem multi_producer_no_error :
    ((twoProducerTrace.filter (fun n => n.Ys.contains 1)).length = 2) ∧
    (get_model_execution_trace_lookups false twoProducerTrace).isSome
      = true := by
  decide

/-- The accumulated-consumed-inputs list after one node, mirroring
`itnAfter` for the executable characterization. -/
def consumedAfter (nid : Option Nat) (n : TraceNode)
    (consumed : List Tensor) : List Tensor :=
  if nid.isSome then consumed ++ n.Xs else consumed

/-- The condition the source actually tests before raising `"Cannot be
more than one creating node."`: walking the id-enriched trace in order
while accumulating the input tensors of non-input nodes (a node's own
inputs are registered before its outputs are checked), some checked
output tensor already occurs among the accumulated consumed inputs. -/
def consumedBeforeCreated (keep : Bool) :
    List (Option Nat × TraceNode) → List Tensor → Bool
  | [], _ => false
  | (nid, n) :: rest, consumed =>
    if (keep || nid.isSome) &&
        n.Ys.any (fun y => (consumedAfter nid n consumed).contains y) then
      true
    else consumedBeforeCreated keep rest (consumedAfter nid n consumed)

theorem cmHasKey_iff (m : ConsumerMap) (y : Tensor) :
    cmHasKey m y = true ↔ ∃ p, p ∈ m ∧ p.1 = y := by
  unfold cmHasKey
  simp [List.find?_isSome]

theorem cmHasKey_cmAppend (m : ConsumerMap) (k : Tensor) (nid : Nat)
    (y : Tensor) :
    cmHasKey (cmAppend m k nid) y = true ↔
      (cmHasKey m y = true ∨ y = k) := by
  unfold cmAppend
  split
  · next hk =>
    rw [cmHasKey_iff, cmHasKey_iff]
    constructor
    · rintro ⟨p', hp', hy⟩
      rw [List.mem_map] at hp'
      obtain ⟨p, hp, rfl⟩ := hp'
      left
      refine ⟨p, hp, ?_⟩
      by_cases h : (p.1 == k) = true
      · rw [if_pos h] at hy
        exact hy
      · rw [if_neg h] at hy
        exact hy
    · intro h
      have key : ∀ p, p ∈ m → p.1 = y →
          ∃ p', p' ∈ m.map (fun p => if p.1 == k then (p.1, p.2 ++ [nid]) else p) ∧
            p'.1 = y := by
        intro p hp hy
        refine ⟨if (p.1 == k) = true then (p.1, p.2 ++ [nid]) else p,
          List.mem_map.mpr ⟨p, hp, rfl⟩, ?_⟩
        by_cases h2 : (p.1 == k) = true
        · rw [if_pos h2]
          exact hy
        · rw [if_neg h2]
          exact hy
      rcases h with ⟨p, hp, hy⟩ | rfl
      · exact key p hp hy
      · rw [cmHasKey_iff] at hk
        obtain ⟨p, hp, hpk⟩ := hk
        exact key p hp hpk
  · next hk =>
    rw [cmHasKey_iff, cmHasKey_iff]
    constructor
    · rintro ⟨p, hp, hy⟩
      rw [List.mem_append] at hp
      rcases hp with hp | hp
      · exact Or.inl ⟨p, hp, hy⟩
      · rw [List.mem_singleton] at hp
        subst hp
        exact Or.inr hy.symm
    · intro h
      rcases h with ⟨p, hp, hy⟩ | rfl
      · exact ⟨p, List.mem_append_left _ hp, hy⟩
      · exact ⟨(y, [nid]), List.mem_append_right _ (List.mem_singleton.mpr rfl),
          rfl⟩

theorem cmHasKey_foldAppend (k : Nat) :
    ∀ (xs : List Tensor) (itn : ConsumerMap) (y : Tensor),
      cmHasKey (xs.foldl (fun acc x => cmAppend acc x k) itn) y = true ↔
        (cmHasKey itn y = true ∨ y ∈ xs) := by
  intro xs
  induction xs with
  | nil =>
    intro itn y
    simp
  | cons x xs ih =>
    intro itn y
    rw [List.foldl_cons, ih, cmHasKey_cmAppend]
    simp only [List.mem_cons]
    tauto

theorem itnAfter_keys (nid : Option Nat) (n : TraceNode) (itn : ConsumerMap)
    (consumed : List Tensor)
    (hkeys : ∀ y, cmHasKey itn y = true ↔ y ∈ consumed) :
    ∀ y, cmHasKey (itnAfter nid n itn) y = true ↔
      y ∈ consumedAfter nid n consumed := by
  intro y
  cases nid with
  | none => simpa [itnAfter, consumedAfter] using hkeys y
  | some k =>
    simp only [itnAfter, consumedAfter, Option.isSome_some, if_true]
    rw [cmHasKey_foldAppend]
    simp [hkeys y]

theorem registerYs_isSome (itn : ConsumerMap) (nid : Option Nat) :
    ∀ (ys : List Tensor) (otn : ProducerMap),
      (registerYs itn nid ys otn).isSome = true ↔
        ∀ y ∈ ys, ¬cmHasKey itn y = true := by
  intro ys
  induction ys with
  | nil =>
    intro otn
    simp [registerYs]
  | cons y ys ih =>
    intro otn
    rw [registerYs]
    by_cases h : cmHasKey itn y = true
    · rw [if_pos h]
      simp [h]
    · rw [if_neg h]
      rw [ih]
      simp [h]

theorem buildLookupsGo_isSome (keep : Bool) :
    ∀ (nodes : List (Option Nat × TraceNode)) (itn : ConsumerMap)
      (otn : ProducerMap) (consumed : List Tensor),
      (∀ y, cmHasKey itn y = true ↔ y ∈ consumed) →
      (buildLookupsGo keep nodes itn otn).isSome =
        !consumedBeforeCreated keep nodes consumed := by
  intro nodes
  induction nodes with
  | nil =>
    intro itn otn consumed _
    simp [buildLookupsGo, consumedBeforeCreated]
  | cons p rest ih =>
    obtain ⟨nid, n⟩ := p
    intro itn otn consumed hkeys
    have hkeys1 := itnAfter_keys nid n itn consumed hkeys
    rw [buildLookupsGo, consumedBeforeCreated]
    by_cases hguard : (keep || nid.isSome) = true
    · rw [if_pos hguard]
      by_cases hbad :
          (n.Ys.any fun y => (consumedAfter nid n consumed).contains y) = true
      · have hfail : registerYs (itnAfter nid n itn) nid n.Ys otn = none := by
          rcases List.any_eq_true.mp hbad with ⟨y, hy, hyc⟩
          cases hreg : registerYs (itnAfter nid n itn) nid n.Ys otn with
          | none => rfl
          | some o =>
            exfalso
            have hall := (registerYs_isSome _ nid n.Ys otn).mp (by rw [hreg]; rfl)
            refine hall y hy ?_
            exact (hkeys1 y).mpr (by simpa using hyc)
        rw [hfail]
        rw [if_pos (by rw [hguard, hbad]; rfl)]
        rfl
      · have hsome : (registerYs (itnAfter nid n itn) nid n.Ys otn).isSome
            = true := by
          rw [registerYs_isSome]
          intro y hy hk
          refine hbad ?_
          refine List.any_eq_true.mpr ⟨y, hy, ?_⟩
          have hmem := (hkeys1 y).mp hk
          simpa using hmem
        obtain ⟨o, ho⟩ := Option.isSome_iff_exists.mp hsome
        have hb2 : (n.Ys.any fun y =>
            (consumedAfter nid n consumed).contains y) = false := by
          cases hx : (n.Ys.any fun y => (consumedAfter nid n consumed).contains y)
          · rfl
          · exact absurd hx hbad
        rw [ho]
        rw [if_neg (by rw [hb2, Bool.and_false]; exact Bool.false_ne_true)]
        exact ih (itnAfter nid n itn) o (consumedAfter nid n consumed) hkeys1
    · rw [if_neg hguard]
      rw [if_neg (by simp [hguard])]
      exact ih (itnAfter nid n itn) otn (consumedAfter nid n consumed) hkeys1

theorem assignNids_map_snd (trace : List TraceNode) :
    ∀ c, (assignNids trace c).map Prod.snd = trace := by
  induction trace with
  | nil => intro c; rfl
  | cons n rest ih =>
    intro c
    rw [assignNids]
    split
    · rw [List.map_cons, ih]
    · rw [List.map_cons, ih]

theorem consumedBeforeCreated_of_topo (keep : Bool) :
    ∀ (xnodes : List (Option Nat × TraceNode)) (consumed : List Tensor),
      (xnodes.map Prod.snd).Pairwise NoBackEdge →
      (∀ n ∈ xnodes.map Prod.snd, NoBackEdge n n) →
      (∀ y ∈ consumed, ∀ q ∈ xnodes, y ∉ q.2.Ys) →
      consumedBeforeCreated keep xnodes consumed = false := by
  intro xnodes
  induction xnodes with
  | nil => intro consumed _ _ _; rfl
  | cons p rest ih =>
    obtain ⟨nid, n⟩ := p
    intro consumed hpw hdiag hcons
    rw [List.map_cons] at hpw hdiag
    rw [consumedBeforeCreated]
    have hnobad :
        (n.Ys.any fun y => (consumedAfter nid n consumed).contains y) = false := by
      rw [Bool.eq_false_iff]
      intro hany
      rcases List.any_eq_true.mp hany with ⟨y, hy, hyc⟩
      have hymem : y ∈ consumedAfter nid n consumed := by simpa using hyc
      unfold consumedAfter at hymem
      split at hymem
      · rw [List.mem_append] at hymem
        rcases hymem with hold | hx
        · exact hcons y hold (nid, n) (List.mem_cons_self _ _) hy
        · exact hdiag n (List.mem_cons_self _ _) y hx hy
      · exact hcons y hymem (nid, n) (List.mem_cons_self _ _) hy
    rw [if_neg (by rw [hnobad, Bool.and_false]; exact Bool.false_ne_true)]
    refine ih (consumedAfter nid n consumed) (List.Pairwise.sublist
      (List.sublist_cons_self _ _) hpw) (fun m hm => hdiag m (List.mem_cons_of_mem _ hm)) ?_
    intro y hymem q hq
    unfold consumedAfter at hymem
    split at hymem
    · rw [List.mem_append] at hymem
      rcases hymem with hold | hx
      · exact hcons y hold q (List.mem_cons_of_mem _ hq)
      · have hpair := List.pairwise_cons.mp hpw
        exact hpair.1 q.2 (List.mem_map.mpr ⟨q, hq, rfl⟩) y hx
    · exact hcons y hymem q (List.mem_cons_of_mem _ hq)

/-- C3 amended: the `"Cannot be more than one creating node."` error of
`get_model_execution_trace` is raised exactly when some node's output
tensor already occurs among the inputs registered by non-input nodes up
to and including that node (`consumedBeforeCreated`) — not when a tensor
has more than one producer; in particular, on any topologically ordered
trace the construction always succeeds, with any number of producers per
tensor. -/
theorem creator_check_characterization :
    (∀ (keep : Bool) (trace : List TraceNode),
      (get_model_execution_trace_lookups keep trace).isSome =
        !consumedBeforeCreated keep (assignNids trace 0) []) ∧
    (∀ (keep : Bool) (trace : List TraceNode), IsTopo trace →
      (get_model_execution_trace_lookups keep trace).isSome = true) := by
  constructor
  · intro keep trace
    apply buildLookupsGo_isSome
    intro y
    simp [cmHasKey]
  · intro keep trace htopo
    have h1 : (get_model_execution_trace_lookups keep trace).isSome =
        !consumedBeforeCreated keep (assignNids trace 0) [] := by
      apply buildLookupsGo_isSome
      intro y
      simp [cmHasKey]
    rw [h1, consumedBeforeCreated_of_topo]
    · rfl
    · rw [assignNids_map_snd]
      exact htopo.1
    · rw [assignNids_map_snd]
      exact htopo.2
    · intro y hy
      exact absurd hy (List.not_mem_nil y)

/-- A layer (`lid = 5`) invoked twice: once inside the traced model
(producing tensor `1`, the model output) and once outside it (producing
tensor `2`, never consumed). -/
def sharedLayerTrace : List TraceNode :=
  [⟨⟨0, true⟩, [], [0]⟩, ⟨⟨5, false⟩, [0], [1]⟩, ⟨⟨5, false⟩, [0], [2]⟩]

/-- The `used_as_input` accumulator of the pruning walk (`graph.py`
390-395) after processing a prefix of the reversed execution list: seeded
with the true outputs, extended by the input tensors of every kept
node. -/
def pruneAcc (used : List Tensor) : List TraceNode → List Tensor
  | [] => used
  | n :: rest =>
    if n.Ys.all (fun y => used.contains y) then
      pruneAcc (used ++ n.Xs) rest
    else
      pruneAcc used rest

/-- The pruning walk splits over list concatenation: the second half is
walked with the accumulator the first half built. -/
theorem pruneRev_append (used : List Tensor) (l1 l2 : List TraceNode) :
    pruneRev used (l1 ++ l2) =
      pruneRev used l1 ++ pruneRev (pruneAcc used l1) l2 := by
  induction l1 generalizing used with
  | nil => rfl
  | cons n rest ih =>
    rw [List.cons_append]
    simp only [pruneRev, pruneAcc]
    by_cases hg : n.Ys.all (fun y => used.contains y) = true
    · rw [if_pos hg, if_pos hg, if_pos hg, ih (used ++ n.Xs),
        List.cons_append]
    · rw [if_neg hg, if_neg hg, if_neg hg, ih used]

/-- C6: the pruning step of `trace_model_execution`, on every execution
trace split as `pre ++ n :: post` around any node `n` — with `needed`
denoting the `used_as_input` set the reverse walk has accumulated when it
reaches `n`, namely `pruneAcc outs post.reverse` — keeps `n` in forward
position exactly when every output tensor of `n` is needed (extending the
set by `n`'s inputs for the rest of the walk), and removes `n` entirely
when some output is not needed; in particular a layer invoked once inside
the traced model and once outside it (the outside output never consumed)
appears in the final record exactly once, from the in-model invocation,
and the kept nodes always form a sublist of the input, in forward
order. -/
theorem pruning_keeps_needed_nodes :
    (∀ (outs : List Tensor) (pre post : List TraceNode) (n : TraceNode),
      n.Ys.all (fun y => (pruneAcc outs post.reverse).contains y) = true →
        pruneNodes outs (pre ++ n :: post) =
          (pruneRev (pruneAcc outs post.reverse ++ n.Xs)
            pre.reverse).reverse ++ n :: pruneNodes outs post) ∧
    (∀ (outs : List Tensor) (pre post : List TraceNode) (n : TraceNode),
      ¬(n.Ys.all (fun y => (pruneAcc outs post.reverse).contains y)
          = true) →
        pruneNodes outs (pre ++ n :: post) =
          (pruneRev (pruneAcc outs post.reverse) pre.reverse).reverse ++
            pruneNodes outs post) ∧
    pruneNodes [1] sharedLayerTrace =
      [⟨⟨0, true⟩, [], [0]⟩, ⟨⟨5, false⟩, [0], [1]⟩] ∧
    ((pruneNodes [1] sharedLayerTrace).filter
      (fun n => n.layer == ⟨5, false⟩)).length = 1 ∧
    (∀ (outs : List Tensor) (trace : List TraceNode),
      List.Sublist (pruneNodes outs trace) trace) := by
  refine ⟨?_, ?_, by decide, by decide,
    fun outs trace => pruneNodes_sublist outs trace⟩
  · intro outs pre post n hg
    unfold pruneNodes
    rw [List.reverse_append, List.reverse_cons, List.append_assoc,
      List.singleton_append, pruneRev_append]
    have hstep : pruneRev (pruneAcc outs post.reverse) (n :: pre.reverse) =
        n :: pruneRev (pruneAcc outs post.reverse ++ n.Xs) pre.reverse := by
      simp only [pruneRev]
      rw [if_pos hg]
    rw [hstep, List.reverse_append, List.reverse_cons, List.append_assoc,
      List.singleton_append]
  · intro outs pre post n hg
    unfold pruneNodes
    rw [List.reverse_append, List.reverse_cons, List.append_assoc,
      List.singleton_append, pruneRev_append]
    have hstep : pruneRev (pruneAcc outs post.reverse) (n :: pre.reverse) =
        pruneRev (pruneAcc outs post.reverse) pre.reverse := by
      simp only [pruneRev]
      rw [if_neg hg]
    rw [hstep, List.reverse_append]

/-- Witness for C6's removal characterization: on the shared-layer trace
the outside invocation (output tensor `2`, never consumed) fails the
needed-outputs test against `used_as_input = [1]` and is removed, leaving
exactly the pruned in-model record. -/
theorem pruning_keeps_needed_nodes_witness :
    ¬((⟨⟨5, false⟩, [0], [2]⟩ : TraceNode).Ys.all
        (fun y =>
          (pruneAcc [1] ([] : List TraceNode).reverse).contains y)
      = true) ∧
    pruneNodes [1]
        ([⟨⟨0, true⟩, [], [0]⟩, ⟨⟨5, false⟩, [0], [1]⟩] ++
          (⟨⟨5, false⟩, [0], [2]⟩ : TraceNode) :: []) =
      (pruneRev (pruneAcc [1] ([] : List TraceNode).reverse)
        [(⟨⟨0, true⟩, [], [0]⟩ : TraceNode),
          ⟨⟨5, false⟩, [0], [1]⟩].reverse).reverse ++
        pruneNodes [1] [] :=
  ⟨by decide,
   pruning_keeps_needed_nodes.2.1 [1]
     [⟨⟨0, true⟩, [], [0]⟩, ⟨⟨5, false⟩, [0], [1]⟩] []
     ⟨⟨5, false⟩, [0], [2]⟩ (by decide)⟩

/-! ## ReverseMappingRegistry: handler initialization in `reverse_model`
(`graph.py` 716-738) -/

/-- What `reverse_mappings(layer)` (or the caller default) yields:
either a plain callable backward function or a `ReverseMappingBase`
subclass whose instantiation constructs a stateful handler object. -/
inductive RMapSpec where
  | plainFn (fid : Nat)
  | mappingClass (cid : Nat)
deriving DecidableEq

/-- The handler stored in `initialized_reverse_mappings[layer]`: a plain
function, the `apply` method of a freshly constructed mapping object
(identified by its class and its construction number), or `None` when
neither a mapping nor a default exists. -/
inductive InitHandler where
  | fn (fid : Nat)
  | obj (cid : Nat) (objId : Nat)
  | unresolved
deriving DecidableEq

/-- `graph.py` 723-725: `reverse_mapping = reverse_mappings(layer)`;
`if reverse_mapping is None: reverse_mapping = default_reverse_mapping`. -/
def resolvedMapping (resolve : Layer → Option RMapSpec)
    (defaultMapping : Option RMapSpec) (l : Layer) : Option RMapSpec :=
  match resolve l with
  | some sp => some sp
  | none => defaultMapping

/-- `graph.py` 717-738: resolve each distinct layer once, before the
reverse walk begins.  Returns the `initialized_reverse_mappings` table,
the construction log — one `(layer, counter)` entry per
`reverse_mapping(layer, state)` object instantiation — and the final
construction counter. -/
def initializeReverseMappings (resolve : Layer → Option RMapSpec)
    (defaultMapping : Option RMapSpec) :
    List Layer → Nat → List (Layer × InitHandler) × List (Layer × Nat) × Nat
  | [], ctr => ([], [], ctr)
  | l :: rest, ctr =>
    match resolvedMapping resolve defaultMapping l with
    | some (RMapSpec.mappingClass cid) =>
      let next := initializeReverseMappings resolve defaultMapping rest (ctr + 1)
      ((l, InitHandler.obj cid ctr) :: next.1, (l, ctr) :: next.2.1, next.2.2)
    | some (RMapSpec.plainFn fid) =>
      let next := initializeReverseMappings resolve defaultMapping rest ctr
      ((l, InitHandler.fn fid) :: next.1, next.2.1, next.2.2)
    | none =>
      let next := initializeReverseMappings resolve defaultMapping rest ctr
      ((l, InitHandler.unresolved) :: next.1, next.2.1, next.2.2)

/-- The reverse walk's handler lookup
(`initialized_reverse_mappings[layer]`, `graph.py` 771): keyed by the
layer — the operator — not by the node. -/
def handlerFor (tbl : List (Layer × InitHandler)) (l : Layer) :
    Option InitHandler :=
  (tbl.find? (fun p => p.1 == l)).map (fun p => p.2)

theorem initRM_cons_class {resolve : Layer → Option RMapSpec}
    {defaultMapping : Option RMapSpec} {l : Layer} {cid : Nat}
    (hr : resolvedMapping resolve defaultMapping l =
      some (RMapSpec.mappingClass cid)) (rest : List Layer) (ctr : Nat) :
    initializeReverseMappings resolve defaultMapping (l :: rest) ctr =
      ((l, InitHandler.obj cid ctr) ::
        (initializeReverseMappings resolve defaultMapping rest (ctr + 1)).1,
       (l, ctr) ::
        (initializeReverseMappings resolve defaultMapping rest (ctr + 1)).2.1,
       (initializeReverseMappings resolve defaultMapping rest (ctr + 1)).2.2) := by
  rw [initializeReverseMappings, hr]

theorem initRM_cons_fn {resolve : Layer → Option RMapSpec}
    {defaultMapping : Option RMapSpec} {l : Layer} {fid : Nat}
    (hr : resolvedMapping resolve defaultMapping l =
      some (RMapSpec.plainFn fid)) (rest : List Layer) (ctr : Nat) :
    initializeReverseMappings resolve defaultMapping (l :: rest) ctr =
      ((l, InitHandler.fn fid) ::
        (initializeReverseMappings resolve defaultMapping rest ctr).1,
       (initializeReverseMappings resolve defaultMapping rest ctr).2.1,
       (initializeReverseMappings resolve defaultMapping rest ctr).2.2) := by
  rw [initializeReverseMappings, hr]

theorem initRM_cons_none {resolve : Layer → Option RMapSpec}
    {defaultMapping : Option RMapSpec} {l : Layer}
    (hr : resolvedMapping resolve defaultMapping l = none)
    (rest : List Layer) (ctr : Nat) :
    initializeReverseMappings resolve defaultMapping (l :: rest) ctr =
      ((l, InitHandler.unresolved) ::
        (initializeReverseMappings resolve defaultMapping rest ctr).1,
       (initializeReverseMappings resolve defaultMapping rest ctr).2.1,
       (initializeReverseMappings resolve defaultMapping rest ctr).2.2) := by
  rw [initializeReverseMappings, hr]

theorem handlerFor_cons_of_ne {tbl : List (Layer × InitHandler)}
    {l L : Layer} (h : l ≠ L) (v : InitHandler) :
    handlerFor ((l, v) :: tbl) L = handlerFor tbl L := by
  unfold handlerFor
  rw [List.find?_cons_of_neg]
  simpa using h

theorem initRM_not_mem (resolve : Layer → Option RMapSpec)
    (defaultMapping : Option RMapSpec) (L : Layer) :
    ∀ (layers : List Layer) (ctr : Nat), L ∉ layers →
      (((initializeReverseMappings resolve defaultMapping layers ctr).2.1.filter
        (fun p => p.1 == L)).length = 0) ∧
      handlerFor (initializeReverseMappings resolve defaultMapping layers ctr).1 L
        = none := by
  intro layers
  induction layers with
  | nil =>
    intro ctr _
    exact ⟨rfl, rfl⟩
  | cons l rest ih =>
    intro ctr hnm
    have hne : l ≠ L := fun h => hnm (h ▸ List.mem_cons_self l rest)
    have hnr : L ∉ rest := fun h => hnm (List.mem_cons_of_mem _ h)
    cases hr : resolvedMapping resolve defaultMapping l with
    | none =>
      obtain ⟨h1, h2⟩ := ih ctr hnr
      rw [initRM_cons_none hr]
      exact ⟨h1, (handlerFor_cons_of_ne hne _).trans h2⟩
    | some sp =>
      cases sp with
      | plainFn fid =>
        obtain ⟨h1, h2⟩ := ih ctr hnr
        rw [initRM_cons_fn hr]
        exact ⟨h1, (handlerFor_cons_of_ne hne _).trans h2⟩
      | mappingClass cid =>
        obtain ⟨h1, h2⟩ := ih (ctr + 1) hnr
        rw [initRM_cons_class hr]
        constructor
        · rw [List.filter_cons_of_neg (by simpa using hne)]
          exact h1
        · exact (handlerFor_cons_of_ne hne _).trans h2

theorem initRM_spec (resolve : Layer → Option RMapSpec)
    (defaultMapping : Option RMapSpec) (L : Layer) (cid : Nat)
    (hres : resolve L = some (RMapSpec.mappingClass cid)) :
    ∀ (layers : List Layer) (ctr : Nat), layers.Nodup → L ∈ layers →
      (((initializeReverseMappings resolve defaultMapping layers ctr).2.1.filter
        (fun p => p.1 == L)).length = 1) ∧
      (∃ oid,
        handlerFor (initializeReverseMappings resolve defaultMapping layers ctr).1 L
          = some (InitHandler.obj cid oid)) := by
  intro layers
  induction layers with
  | nil =>
    intro ctr _ hmem
    exact absurd hmem (List.not_mem_nil L)
  | cons l rest ih =>
    intro ctr hnd hmem
    by_cases hl : l = L
    · subst hl
      have hr : resolvedMapping resolve defaultMapping l =
          some (RMapSpec.mappingClass cid) := by
        unfold resolvedMapping
        rw [hres]
      rw [initRM_cons_class hr]
      have hnr : l ∉ rest := (List.nodup_cons.mp hnd).1
      obtain ⟨h1, _⟩ := initRM_not_mem resolve defaultMapping l rest (ctr + 1) hnr
      constructor
      · rw [List.filter_cons_of_pos (by simp)]
        rw [List.length_cons, h1]
      · refine ⟨ctr, ?_⟩
        unfold handlerFor
        rw [List.find?_cons_of_pos]
        · rfl
        · simp
    · have hmr : L ∈ rest := by
        rcases List.mem_cons.mp hmem with h | h
        · exact absurd h.symm hl
        · exact h
      have hnd2 : rest.Nodup := (List.nodup_cons.mp hnd).2
      cases hr : resolvedMapping resolve defaultMapping l with
      | none =>
        obtain ⟨h1, h2⟩ := ih ctr hnd2 hmr
        rw [initRM_cons_none hr]
        obtain ⟨oid, ho⟩ := h2
        exact ⟨h1, oid, (handlerFor_cons_of_ne hl _).trans ho⟩
      | some sp =>
        cases sp with
        | plainFn fid =>
          obtain ⟨h1, h2⟩ := ih ctr hnd2 hmr
          rw [initRM_cons_fn hr]
          obtain ⟨oid, ho⟩ := h2
          exact ⟨h1, oid, (handlerFor_cons_of_ne hl _).trans ho⟩
        | mappingClass c2 =>
          obtain ⟨h1, h2⟩ := ih (ctr + 1) hnd2 hmr
          rw [initRM_cons_class hr]
          obtain ⟨oid, ho⟩ := h2
          refine ⟨?_, oid, (handlerFor_cons_of_ne hl _).trans ho⟩
          rw [List.filter_cons_of_neg (by simpa using hl)]
          exact h1

/-- C8: in `reverse_model`, backward-handler resolution happens exactly
once per distinct layer instance, before the reverse walk begins: for a
stateful (`ReverseMappingBase`-class) mapping resolved for a layer `L`
occurring once in the duplicate-free layer list, the handler object is
constructed exactly once (one construction-log entry for `L`), the table
holds its `apply` handler for `L`, and every node applying `L` looks up
that same handler. -/
theorem handler_resolution_once (resolve : Layer → Option RMapSpec)
    (defaultMapping : Option RMapSpec) (layers : List Layer) (L : Layer)
    (cid : Nat) (hnd : layers.Nodup) (hmem : L ∈ layers)
    (hres : resolve L = some (RMapSpec.mappingClass cid)) :
    (((initializeReverseMappings resolve defaultMapping layers 0).2.1.filter
      (fun p => p.1 == L)).length = 1) ∧
    (∃ oid,
      handlerFor (initializeReverseMappings resolve defaultMapping layers 0).1 L
        = some (InitHandler.obj cid oid)) ∧
    (∀ n1 n2 : TraceNode, n1.layer = L → n2.layer = L →
      handlerFor (initializeReverseMappings resolve defaultMapping layers 0).1
          n1.layer =
        handlerFor (initializeReverseMappings resolve defaultMapping layers 0).1
          n2.layer) := by
  obtain ⟨h1, h2⟩ := initRM_spec resolve defaultMapping L cid hres layers 0 hnd hmem
  refine ⟨h1, h2, ?_⟩
  intro n1 n2 e1 e2
  rw [e1, e2]

/-! ## Scoped instrumentation in `trace_model_execution`'s replay branch
(`graph.py` 312-343) -/

/-- A layer's `call` attribute: an original bound method, or a patched
recording wrapper (`f.__patched__ = True`) holding what it wrapped. -/
inductive CallFn where
  | original (lid : Nat) (ver : Nat)
  | patched (inner : CallFn)
deriving DecidableEq

def CallFn.isPatched : CallFn → Bool
  | .patched _ => true
  | _ => false

/-- The process-wide assignment of `call` attributes, by layer id. -/
abbrev CallMap := Nat → CallFn

inductive ReplayErr where
  | reentrantPatch
  | replayFailure
  | reapplyFailure
deriving DecidableEq

/-- `graph.py` 317-334: the patch loop.  `patch` raises
`"Should not happen as we patch objects not classes."` when the method it
is about to wrap is already patched; otherwise each layer's `call` is
replaced in turn by the recording wrapper.  Returns the state reached and
the error, if any (a mid-loop failure leaves earlier layers patched). -/
def patchAll : List Nat → CallMap → CallMap × Option ReplayErr
  | [], calls => (calls, none)
  | l :: rest, calls =>
    if (calls l).isPatched then (calls, some .reentrantPatch)
    else patchAll rest (fun t => if t = l then .patched (calls l) else calls t)

/-- `graph.py` 340-343, the `finally` block: restore every saved
`(layer, old_method)` pair. -/
def restoreAll (saved : List (Nat × CallFn)) (calls : CallMap) : CallMap :=
  saved.foldl (fun cm p => fun t => if t = p.1 then p.2 else cm t) calls

/-- `graph.py` 312-372, the replay branch of `trace_model_execution`
restricted to its effect on the layers' `call` attributes:
`monkey_patches` saves every layer's `call` before the `try`; inside the
`try` every layer is patched and the model replay runs (the replay only
invokes the patched wrappers and reassigns no `call` attribute — its
outcome is the `replayFails` parameter); the `finally` block restores all
saved methods on every exit path; the re-application loop after the
`finally` (`reapplyFails`) touches no `call` attribute. -/
def runReplayBranch (layers : List Nat) (calls0 : CallMap)
    (replayFails reapplyFails : Bool) : Except ReplayErr Unit × CallMap :=
  let monkeyPatches := layers.map (fun l => (l, calls0 l))
  let body := patchAll layers calls0
  let restored := restoreAll monkeyPatches body.1
  (match body.2 with
   | some e => .error e
   | none =>
     if replayFails then .error .replayFailure
     else if reapplyFails then .error .reapplyFailure
     else .ok (), restored)

theorem patchAll_not_mem :
    ∀ (layers : List Nat) (calls : CallMap) (t : Nat), t ∉ layers →
      (patchAll layers calls).1 t = calls t := by
  intro layers
  induction layers with
  | nil => intro calls t _; rfl
  | cons l rest ih =>
    intro calls t ht
    rw [patchAll]
    split
    · rfl
    · have hne : t ≠ l := fun h => ht (h ▸ List.mem_cons_self l rest)
      rw [ih _ t (fun h => ht (List.mem_cons_of_mem _ h))]
      simp [hne]

theorem restoreAll_not_mem :
    ∀ (saved : List (Nat × CallFn)) (base : CallMap) (t : Nat),
      t ∉ saved.map Prod.fst → restoreAll saved base t = base t := by
  intro saved
  induction saved with
  | nil => intro base t _; rfl
  | cons p rest ih =>
    intro base t ht
    rw [List.map_cons] at ht
    have hne : t ≠ p.1 := fun h => ht (h ▸ List.mem_cons_self _ _)
    unfold restoreAll at ih ⊢
    rw [List.foldl_cons]
    rw [ih _ t (fun h => ht (List.mem_cons_of_mem _ h))]
    simp [hne]

theorem restoreAll_mem (calls0 : CallMap) :
    ∀ (saved : List (Nat × CallFn)) (base : CallMap) (t : Nat),
      (∀ p ∈ saved, p.2 = calls0 p.1) → t ∈ saved.map Prod.fst →
      restoreAll saved base t = calls0 t := by
  intro saved
  induction saved with
  | nil =>
    intro base t _ ht
    exact absurd ht (List.not_mem_nil t)
  | cons p rest ih =>
    intro base t hval ht
    unfold restoreAll at ih ⊢
    rw [List.foldl_cons]
    by_cases hr : t ∈ rest.map Prod.fst
    · exact ih _ t (fun q hq => hval q (List.mem_cons_of_mem _ hq)) hr
    · have hp : t = p.1 := by
        rw [List.map_cons] at ht
        rcases List.mem_cons.mp ht with h | h
        · exact h
        · exact absurd h hr
      have hnotr : t ∉ (rest.map (fun q : Nat × CallFn => q.1)) := hr
      have hbase := restoreAll_not_mem rest
        (fun u => if u = p.1 then p.2 else base u) t hnotr
      unfold restoreAll at hbase
      rw [hbase]
      dsimp only
      rw [if_pos hp]
      rw [hval p (List.mem_cons_self _ _), hp]

/-- C9: on every exit path of the replay branch — normal return, a
reentrant-instrumentation failure inside the patch loop, a replay
failure, or a re-application failure — every layer's `call` attribute is
restored to its pre-invocation value before the function returns or
propagates, so no layer remains instrumented afterwards. -/
theorem instrumentation_always_restored (layers : List Nat)
    (calls0 : CallMap) (replayFails reapplyFails : Bool) (t : Nat) :
    (runReplayBranch layers calls0 replayFails reapplyFails).2 t = calls0 t := by
  show restoreAll (layers.map fun l => (l, calls0 l))
    (patchAll layers calls0).1 t = calls0 t
  have hfst : (layers.map fun l => (l, calls0 l)).map Prod.fst = layers := by
    rw [List.map_map]
    apply List.map_id''
    intro x
    rfl
  by_cases ht : t ∈ layers
  · refine restoreAll_mem calls0 _ _ t ?_ ?_
    · intro p hp
      rw [List.mem_map] at hp
      obtain ⟨l, _, rfl⟩ := hp
      rfl
    · rw [hfst]
      exact ht
  · rw [restoreAll_not_mem _ _ t (by rw [hfst]; exact ht)]
    exact patchAll_not_mem layers calls0 t ht

/-! ## GraphTracer replay branch: tensor re-derivation
(`graph.py` 345-372) -/

/-- The `tensor_mapping` dictionary (original tensor → re-derived
tensor), embedded as an association list: a dictionary write prepends, so
the first-match lookup sees the newest binding. -/
abbrev TMap := List (Tensor × Tensor)

def alLookup (m : TMap) (k : Tensor) : Option Tensor :=
  (m.find? (fun p => p.1 == k)).map (fun p => p.2)

/-- `tensor_mapping.update({k: v for k, v in zip(Ys, new_Ys)})`
(`graph.py` 367); within the dict comprehension a later duplicate key
wins, hence the zip is prepended reversed. -/
def updZip (m : TMap) (ks vs : List Tensor) : TMap :=
  (ks.zip vs).reverse ++ m

/-- `graph.py` 356-368, the re-application loop.  `InputLayer` entries
pass through unchanged; for any other layer the substituted input tensors
are looked up (`KeyError` when absent), the layer is re-applied — the
framework call `kapply(layer, new_Xs)` mints fresh output tensors of the
invocation's arity, modelled as consecutive ids from the counter `c` —
and the substitution map is extended with `zip(Ys, new_Ys)`.  This is the
`reapply_on_copied_layers=False` run, where `layer_mapping` is the
identity. -/
def rebuildGo (m : TMap) (c : Nat) :
    List TraceNode → Option (List TraceNode × TMap × Nat)
  | [] => some ([], m, c)
  | n :: rest =>
    if n.layer.isInputLayer then
      match rebuildGo (updZip m n.Ys n.Ys) c rest with
      | some (tr, m2, c2) => some (n :: tr, m2, c2)
      | none => none
    else
      match n.Xs.mapM (fun x => alLookup m x) with
      | none => none
      | some newXs =>
        match rebuildGo (updZip m n.Ys (List.range' c n.Ys.length))
            (c + n.Ys.length) rest with
        | some (tr, m2, c2) =>
          some (⟨n.layer, newXs, List.range' c n.Ys.length⟩ :: tr, m2, c2)
        | none => none

/-- `graph.py` 350-372: seed `tensor_mapping = {tmp: tmp for tmp in
model.inputs}` and run the re-application loop over the logged
invocations.  `firstFresh` is the least unused tensor id; every tensor
Keras mints during re-application is a new object, hence above it. -/
def rebuildTrace (inputs : List Tensor) (firstFresh : Nat)
    (log : List TraceNode) : Option (List TraceNode × TMap × Nat) :=
  rebuildGo (inputs.map (fun x => (x, x))) firstFresh log

/-- The total tensor re-derivation function induced by a substitution
map: identity outside the map's domain. -/
def fLook (m : TMap) (t : Tensor) : Tensor := (alLookup m t).getD t

/-- Rename every tensor of a trace; the layers stay untouched. -/
def mapTrace (f : Tensor → Tensor) (l : List TraceNode) : List TraceNode :=
  l.map (fun n => ⟨n.layer, n.Xs.map f, n.Ys.map f⟩)

def allYs (l : List TraceNode) : List Tensor := (l.map TraceNode.Ys).flatten

/-- Bookkeeping invariant of the substitution map during the rebuild: a
value below `firstFresh` is an identity binding; a value at or above it
is a freshly minted tensor below the counter, minted for exactly one
key. -/
def MapInv (ff c : Nat) (m : TMap) : Prop :=
  (∀ k v, alLookup m k = some v → (v = k ∧ v < ff) ∨ (ff ≤ v ∧ v < c)) ∧
  (∀ k1 k2 v, alLookup m k1 = some v → alLookup m k2 = some v → ff ≤ v →
    k1 = k2)

/-- What makes a replay log meaningful: all logged tensor ids lie below
`firstFresh` (re-application mints new tensor objects), the log is a
topological execution order (a forward execution computes a tensor before
any use), distinct invocations produce distinct tensors and no invocation
lists a tensor twice among its outputs (the single-producer graph
invariant), and `InputLayer` invocations consume nothing. -/
def LogOK (ff : Nat) (log : List TraceNode) : Prop :=
  (∀ n ∈ log, (∀ t ∈ n.Xs, t < ff) ∧ (∀ t ∈ n.Ys, t < ff)) ∧
  IsTopo log ∧
  log.Pairwise (fun a b => ∀ t ∈ a.Ys, t ∉ b.Ys) ∧
  (∀ n ∈ log, n.Ys.Nodup) ∧
  (∀ n ∈ log, n.layer.isInputLayer = true → n.Xs = [])

instance (ff : Nat) (log : List TraceNode) : Decidable (LogOK ff log) :=
  inferInstanceAs (Decidable (_ ∧ _))

theorem alLookup_updZip_not_mem {m : TMap} {ks vs : List Tensor}
    {x : Tensor} (hx : x ∉ ks) :
    alLookup (updZip m ks vs) x = alLookup m x := by
  unfold updZip alLookup
  rw [List.find?_append]
  have hnone : List.find? (fun p => p.1 == x) (ks.zip vs).reverse = none := by
    rw [List.find?_eq_none]
    intro p hp
    obtain ⟨p1, p2⟩ := p
    have hmem := List.of_mem_zip (List.mem_reverse.mp hp)
    simp only [beq_iff_eq]
    intro h
    exact hx (h ▸ hmem.1)
  rw [hnone, Option.none_or]

theorem mem_zip_self {ks : List Tensor} {x : Tensor} (hx : x ∈ ks) :
    (x, x) ∈ ks.zip ks := by
  induction ks with
  | nil => exact absurd hx (List.not_mem_nil x)
  | cons a rest ih =>
    rw [List.zip_cons_cons]
    rcases List.mem_cons.mp hx with rfl | h
    · exact List.mem_cons_self _ _
    · exact List.mem_cons_of_mem _ (ih h)

theorem zip_self_fst_eq_snd {ks : List Tensor} {p : Tensor × Tensor}
    (hp : p ∈ ks.zip ks) : p.1 = p.2 := by
  induction ks with
  | nil => exact absurd hp (List.not_mem_nil p)
  | cons a rest ih =>
    rw [List.zip_cons_cons] at hp
    rcases List.mem_cons.mp hp with h | h
    · rw [h]
    · exact ih h

theorem alLookup_updZip_self {m : TMap} {ks : List Tensor} {x : Tensor}
    (hx : x ∈ ks) : alLookup (updZip m ks ks) x = some x := by
  unfold updZip alLookup
  rw [List.find?_append]
  cases hf : List.find? (fun p => p.1 == x) (ks.zip ks).reverse with
  | none =>
    exfalso
    rw [List.find?_eq_none] at hf
    refine hf (x, x) ?_ (by simp)
    rw [List.mem_reverse]
    exact mem_zip_self hx
  | some p =>
    have hmem := List.mem_reverse.mp (List.mem_of_find?_eq_some hf)
    have hpx := List.find?_some hf
    have hpp := zip_self_fst_eq_snd hmem
    simp only [beq_iff_eq] at hpx
    rw [Option.or_some]
    show some p.2 = some x
    rw [← hpp, hpx]

theorem alLookup_updZip_cases {m : TMap} {ks vs : List Tensor}
    {k v : Tensor} (h : alLookup (updZip m ks vs) k = some v) :
    (∃ (i : Nat) (h1 : i < ks.length) (h2 : i < vs.length),
      ks.get ⟨i, h1⟩ = k ∧ vs.get ⟨i, h2⟩ = v) ∨ alLookup m k = some v := by
  unfold updZip alLookup at h
  rw [List.find?_append] at h
  cases hf : List.find? (fun p => p.1 == k) (ks.zip vs).reverse with
  | none =>
    rw [hf, Option.none_or] at h
    exact Or.inr h
  | some p =>
    rw [hf, Option.or_some] at h
    have hv : p.2 = v := Option.some.inj h
    have hmem := List.mem_reverse.mp (List.mem_of_find?_eq_some hf)
    have hpk : p.1 = k := by
      have := List.find?_some hf
      simpa using this
    obtain ⟨j, hj⟩ := List.mem_iff_get.mp hmem
    have hjz := @List.get_zip _ _ ks vs j
    rw [hjz] at hj
    left
    refine ⟨j, List.lt_length_left_of_zip j.isLt,
      List.lt_length_right_of_zip j.isLt, ?_, ?_⟩
    · exact (congrArg Prod.fst hj).trans hpk
    · exact (congrArg Prod.snd hj).trans hv

theorem alLookup_updZip_pos {m : TMap} {ks vs : List Tensor}
    (hnd : ks.Nodup) (hlen : vs.length = ks.length) {i : Nat}
    (h1 : i < ks.length) :
    alLookup (updZip m ks vs) (ks.get ⟨i, h1⟩) =
      some (vs.get ⟨i, hlen ▸ h1⟩) := by
  have hlz : i < (ks.zip vs).length := by
    rw [List.length_zip, hlen]
    simpa using h1
  have hpair : (ks.get ⟨i, h1⟩, vs.get ⟨i, hlen ▸ h1⟩) ∈ ks.zip vs := by
    have hjz := @List.get_zip _ _ ks vs ⟨i, hlz⟩
    rw [List.mem_iff_get]
    exact ⟨⟨i, hlz⟩, hjz.trans rfl⟩
  unfold updZip alLookup
  rw [List.find?_append]
  cases hf : List.find? (fun p => p.1 == ks.get ⟨i, h1⟩)
      (ks.zip vs).reverse with
  | none =>
    exfalso
    rw [List.find?_eq_none] at hf
    exact hf _ (List.mem_reverse.mpr hpair) (by simp)
  | some p =>
    rw [Option.or_some]
    have hmem := List.mem_reverse.mp (List.mem_of_find?_eq_some hf)
    have hpk : p.1 = ks.get ⟨i, h1⟩ := by
      have := List.find?_some hf
      simpa using this
    obtain ⟨j, hj⟩ := List.mem_iff_get.mp hmem
    have hjz := @List.get_zip _ _ ks vs j
    rw [hjz] at hj
    have hk1 : ks.get ⟨j, List.lt_length_left_of_zip j.isLt⟩ = p.1 :=
      congrArg Prod.fst hj
    have hk2 : vs.get ⟨j, List.lt_length_right_of_zip j.isLt⟩ = p.2 :=
      congrArg Prod.snd hj
    have hkeq : ks.get ⟨j, List.lt_length_left_of_zip j.isLt⟩ =
        ks.get ⟨i, h1⟩ := by rw [hk1, hpk]
    have hij : (⟨j, List.lt_length_left_of_zip j.isLt⟩ : Fin ks.length) =
        ⟨i, h1⟩ := (List.Nodup.get_inj_iff hnd).mp hkeq
    have hji : (j : Nat) = i := congrArg Fin.val hij
    show some p.2 = some (vs.get ⟨i, hlen ▸ h1⟩)
    rw [← hk2]
    exact congrArg (fun fi => some (vs.get fi)) (Fin.ext hji)

theorem mem_allYs {l : List TraceNode} {y : Tensor} :
    y ∈ allYs l ↔ ∃ b ∈ l, y ∈ b.Ys := by
  unfold allYs
  rw [List.mem_flatten]
  constructor
  · rintro ⟨ys, hys, hy⟩
    rw [List.mem_map] at hys
    obtain ⟨b, hb, rfl⟩ := hys
    exact ⟨b, hb, hy⟩
  · rintro ⟨b, hb, hy⟩
    exact ⟨b.Ys, List.mem_map.mpr ⟨b, hb, rfl⟩, hy⟩

theorem allYs_cons (n : TraceNode) (l : List TraceNode) :
    allYs (n :: l) = n.Ys ++ allYs l := rfl

theorem mapM_alLookup {m : TMap} :
    ∀ {xs ys : List Tensor}, xs.mapM (fun x => alLookup m x) = some ys →
      ys = xs.map (fLook m) := by
  intro xs
  induction xs with
  | nil =>
    intro ys h
    rw [List.mapM_nil] at h
    injection h with h
    rw [← h]
    rfl
  | cons x xs ih =>
    intro ys h
    rw [List.mapM_cons] at h
    cases hx : alLookup m x with
    | none => rw [hx] at h; exact absurd h (by simp)
    | some v =>
      rw [hx] at h
      cases hxs : xs.mapM (fun x => alLookup m x) with
      | none => rw [hxs] at h; exact absurd h (by simp)
      | some vs =>
        rw [hxs] at h
        have hvs := ih hxs
        have h2 : v :: vs = ys :=
          Option.some.inj (show some (v :: vs) = some ys from h)
        rw [← h2, hvs, List.map_cons]
        have hfx : fLook m x = v := by
          unfold fLook
          rw [hx]
          rfl
        rw [hfx]

theorem range'_get_eq (c len i : Nat) (h : i < (List.range' c len).length) :
    (List.range' c len).get ⟨i, h⟩ = c + i := by
  rw [List.get_eq_getElem]
  exact List.getElem_range'_1 i h

theorem rebuildGo_spec (ff : Nat) :
    ∀ (log : List TraceNode) (m : TMap) (c : Nat),
      ff ≤ c →
      MapInv ff c m →
      (∀ n ∈ log, (∀ t ∈ n.Xs, t < ff) ∧ (∀ t ∈ n.Ys, t < ff)) →
      log.Pairwise NoBackEdge →
      (∀ n ∈ log, NoBackEdge n n) →
      log.Pairwise (fun a b => ∀ t ∈ a.Ys, t ∉ b.Ys) →
      (∀ n ∈ log, n.Ys.Nodup) →
      (∀ n ∈ log, n.layer.isInputLayer = true → n.Xs = []) →
      ∀ tr m2 c2, rebuildGo m c log = some (tr, m2, c2) →
        tr = mapTrace (fLook m2) log ∧
        ff ≤ c2 ∧ c ≤ c2 ∧ MapInv ff c2 m2 ∧
        (∀ x, x ∉ allYs log → alLookup m2 x = alLookup m x) := by
  intro log
  induction log with
  | nil =>
    intro m c hffc hinv _ _ _ _ _ _ tr m2 c2 h
    rw [rebuildGo] at h
    injection h with h
    simp only [Prod.mk.injEq] at h
    obtain ⟨rfl, rfl, rfl⟩ := h
    exact ⟨rfl, hffc, le_refl c, hinv, fun x _ => rfl⟩
  | cons n rest ih =>
    intro m c hffc hinv hbound hpw hdiag hydisj hnodup hinp tr m2 c2 h
    have hbn := hbound n (List.mem_cons_self _ _)
    have hboundr := fun b hb => hbound b (List.mem_cons_of_mem n hb)
    have hpwh := (List.pairwise_cons.mp hpw).1
    have hpwr := (List.pairwise_cons.mp hpw).2
    have hdiagn := hdiag n (List.mem_cons_self _ _)
    have hdiagr := fun b hb => hdiag b (List.mem_cons_of_mem n hb)
    have hydisjh := (List.pairwise_cons.mp hydisj).1
    have hydisjr := (List.pairwise_cons.mp hydisj).2
    have hnodupn := hnodup n (List.mem_cons_self _ _)
    have hnodupr := fun b hb => hnodup b (List.mem_cons_of_mem n hb)
    have hinpr := fun b hb => hinp b (List.mem_cons_of_mem n hb)
    have hnotYsRest : ∀ y ∈ n.Ys, y ∉ allYs rest := by
      intro y hy hmem
      obtain ⟨b, hb, hyb⟩ := mem_allYs.mp hmem
      exact hydisjh b hb y hy hyb
    rw [rebuildGo] at h
    by_cases hil : n.layer.isInputLayer = true
    · rw [if_pos hil] at h
      cases hrec : rebuildGo (updZip m n.Ys n.Ys) c rest with
      | none => rw [hrec] at h; exact absurd h (by simp)
      | some res =>
        obtain ⟨tr1, m2x, c2x⟩ := res
        rw [hrec] at h
        injection h with h
        simp only [Prod.mk.injEq] at h
        obtain ⟨rfl, rfl, rfl⟩ := h
        have hinv1 : MapInv ff c (updZip m n.Ys n.Ys) := by
          constructor
          · intro k v hkv
            rcases alLookup_updZip_cases hkv with ⟨i, h1, h2, hks, hvs⟩ | hold
            · left
              have : n.Ys.get ⟨i, h2⟩ = v := hvs
              have hk : n.Ys.get ⟨i, h1⟩ = k := hks
              refine ⟨?_, ?_⟩
              · rw [← this, ← hk]
              · rw [← this]
                exact hbn.2 _ (List.get_mem _ _ _)
            · exact hinv.1 k v hold
          · intro k1 k2 v hk1 hk2 hffv
            rcases alLookup_updZip_cases hk1 with ⟨i, h1, h2, hks1, hvs1⟩ | hold1
            · exfalso
              have hvy : v ∈ n.Ys := by
                rw [← hvs1]
                exact List.get_mem _ _ _
              exact Nat.lt_irrefl ff (Nat.lt_of_le_of_lt hffv (hbn.2 v hvy))
            · rcases alLookup_updZip_cases hk2 with ⟨j, g1, g2, hks2, hvs2⟩ | hold2
              · exfalso
                have hvy : v ∈ n.Ys := by
                  rw [← hvs2]
                  exact List.get_mem _ _ _
                exact Nat.lt_irrefl ff (Nat.lt_of_le_of_lt hffv (hbn.2 v hvy))
              · exact hinv.2 k1 k2 v hold1 hold2 hffv
        obtain ⟨htr, hffc2, hcc2, hinv2, hstab⟩ :=
          ih (updZip m n.Ys n.Ys) c hffc hinv1 hboundr hpwr hdiagr hydisjr
            hnodupr hinpr tr1 m2x c2x hrec
        have hXsnil := hinp n (List.mem_cons_self _ _) hil
        have hYsid : n.Ys.map (fLook m2x) = n.Ys := by
          have hpt : ∀ y ∈ n.Ys, fLook m2x y = y := by
            intro y hy
            unfold fLook
            rw [hstab y (hnotYsRest y hy), alLookup_updZip_self hy]
            rfl
          calc n.Ys.map (fLook m2x) = n.Ys.map id := List.map_congr_left hpt
          _ = n.Ys := List.map_id _
        refine ⟨?_, hffc2, hcc2, hinv2, ?_⟩
        · rw [mapTrace, List.map_cons]
          have hn : n = ⟨n.layer, [], n.Ys⟩ := by
            rw [← hXsnil]
          rw [show tr1 = mapTrace (fLook m2x) rest from htr]
          rw [hXsnil]
          simp only [List.map_nil]
          rw [hYsid]
          rw [← hn]
          rfl
        · intro x hx
          rw [allYs_cons, List.mem_append] at hx
          push_neg at hx
          rw [hstab x hx.2]
          exact alLookup_updZip_not_mem hx.1
    · rw [if_neg hil] at h
      cases hXsM : n.Xs.mapM (fun x => alLookup m x) with
      | none => rw [hXsM] at h; exact absurd h (by simp)
      | some newXs =>
        rw [hXsM] at h
        cases hrec : rebuildGo (updZip m n.Ys (List.range' c n.Ys.length))
            (c + n.Ys.length) rest with
        | none => rw [hrec] at h; exact absurd h (by simp)
        | some res =>
          obtain ⟨tr1, m2x, c2x⟩ := res
          rw [hrec] at h
          injection h with h
          simp only [Prod.mk.injEq] at h
          obtain ⟨rfl, rfl, rfl⟩ := h
          have hlenr : (List.range' c n.Ys.length).length = n.Ys.length := by
            simp
          have hinv1 : MapInv ff (c + n.Ys.length)
              (updZip m n.Ys (List.range' c n.Ys.length)) := by
            constructor
            · intro k v hkv
              rcases alLookup_updZip_cases hkv with ⟨i, h1, h2, hks, hvs⟩ | hold
              · right
                have hvi : (List.range' c n.Ys.length).get ⟨i, h2⟩ = v := hvs
                have hvi2 : v = c + i := by
                  rw [← hvi]
                  exact range'_get_eq c n.Ys.length i h2
                have hilen : i < n.Ys.length := by
                  rw [hlenr] at h2
                  exact h2
                constructor
                · rw [hvi2]
                  exact le_trans hffc (Nat.le_add_right c i)
                · rw [hvi2]
                  exact Nat.add_lt_add_left hilen c
              · rcases hinv.1 k v hold with hl | hr
                · exact Or.inl hl
                · exact Or.inr ⟨hr.1, Nat.lt_of_lt_of_le hr.2 (Nat.le_add_right c _)⟩
            · intro k1 k2 v hk1 hk2 hffv
              rcases alLookup_updZip_cases hk1 with ⟨i, h1, h2, hks1, hvs1⟩ | hold1
              · rcases alLookup_updZip_cases hk2 with ⟨j, g1, g2, hks2, hvs2⟩ | hold2
                · have hvi : v = c + i := by
                    rw [← hvs1]
                    exact range'_get_eq c n.Ys.length i h2
                  have hvj : v = c + j := by
                    rw [← hvs2]
                    exact range'_get_eq c n.Ys.length j g2
                  have hij : i = j := Nat.add_left_cancel (hvi.symm.trans hvj)
                  subst hij
                  rw [← hks1]
                  exact hks2
                · exfalso
                  have hcv : c ≤ v := by
                    rw [show v = c + i from by
                      rw [← hvs1]
                      exact range'_get_eq c n.Ys.length i h2]
                    exact Nat.le_add_right c i
                  rcases hinv.1 k2 v hold2 with hl | hr
                  · exact Nat.lt_irrefl v
                      (Nat.lt_of_lt_of_le hl.2 (le_trans hffc hcv))
                  · exact absurd hr.2 (Nat.not_lt.mpr hcv)
              · rcases alLookup_updZip_cases hk2 with ⟨j, g1, g2, hks2, hvs2⟩ | hold2
                · exfalso
                  have hcv : c ≤ v := by
                    rw [show v = c + j from by
                      rw [← hvs2]
                      exact range'_get_eq c n.Ys.length j g2]
                    exact Nat.le_add_right c j
                  rcases hinv.1 k1 v hold1 with hl | hr
                  · exact Nat.lt_irrefl v
                      (Nat.lt_of_lt_of_le hl.2 (le_trans hffc hcv))
                  · exact absurd hr.2 (Nat.not_lt.mpr hcv)
                · exact hinv.2 k1 k2 v hold1 hold2 hffv
          obtain ⟨htr, hffc2, hcc2, hinv2, hstab⟩ :=
            ih (updZip m n.Ys (List.range' c n.Ys.length)) (c + n.Ys.length)
              (le_trans hffc (Nat.le_add_right c _)) hinv1 hboundr hpwr hdiagr
              hydisjr hnodupr hinpr tr1 m2x c2x hrec
          have hXstab : ∀ x ∈ n.Xs, alLookup m2x x = alLookup m x := by
            intro x hx
            have hnY : x ∉ n.Ys := hdiagn x hx
            have hnR : x ∉ allYs rest := by
              intro hmem
              obtain ⟨b, hb, hxb⟩ := mem_allYs.mp hmem
              exact hpwh b hb x hx hxb
            rw [hstab x hnR]
            exact alLookup_updZip_not_mem hnY
          have hXsmap : newXs = n.Xs.map (fLook m2x) := by
            rw [mapM_alLookup hXsM]
            apply List.map_congr_left
            intro x hx
            unfold fLook
            rw [hXstab x hx]
          have hYsmap : n.Ys.map (fLook m2x) = List.range' c n.Ys.length := by
            apply List.ext_get
            · simp
            · intro i h1 h2
              rw [List.get_map]
              have hiY : i < n.Ys.length := by simpa using h1
              have hyel : n.Ys.get ⟨i, hiY⟩ ∈ n.Ys := List.get_mem _ _ _
              have hstab2 : alLookup m2x (n.Ys.get ⟨i, hiY⟩) =
                  alLookup (updZip m n.Ys (List.range' c n.Ys.length))
                    (n.Ys.get ⟨i, hiY⟩) :=
                hstab _ (hnotYsRest _ hyel)
              have hpos := @alLookup_updZip_pos m n.Ys
                (List.range' c n.Ys.length) hnodupn hlenr i hiY
              show fLook m2x (n.Ys.get ⟨i, hiY⟩) = _
              unfold fLook
              rw [hstab2, hpos]
              rfl
          refine ⟨?_, hffc2, le_trans (Nat.le_add_right c _) hcc2, hinv2, ?_⟩
          · rw [mapTrace, List.map_cons, hXsmap, ← hYsmap, htr]
            rfl
          · intro x hx
            rw [allYs_cons, List.mem_append] at hx
            push_neg at hx
            rw [hstab x hx.2]
            exact alLookup_updZip_not_mem hx.1

theorem alLookup_seed (inputs : List Tensor) :
    ∀ k v, alLookup (inputs.map fun x => (x, x)) k = some v →
      v = k ∧ k ∈ inputs := by
  induction inputs with
  | nil =>
    intro k v h
    simp [alLookup] at h
  | cons a as ih =>
    intro k v h
    rw [List.map_cons] at h
    by_cases hak : a = k
    · subst hak
      unfold alLookup at h
      rw [List.find?_cons_of_pos _ (by simp)] at h
      have hv : a = v := Option.some.inj (show some a = some v from h)
      exact ⟨hv.symm, List.mem_cons_self _ _⟩
    · unfold alLookup at h
      rw [List.find?_cons_of_neg _ (by simp [hak])] at h
      obtain ⟨hvk, hmem⟩ := ih k v h
      exact ⟨hvk, List.mem_cons_of_mem a hmem⟩

/-- The seed map `{tmp: tmp for tmp in model.inputs}` (`graph.py` 350-352)
satisfies the rebuild bookkeeping invariant when every model input id lies
below the first fresh id. -/
theorem mapInv_seed (ff : Nat) (inputs : List Tensor)
    (hb : ∀ t ∈ inputs, t < ff) :
    MapInv ff ff (inputs.map fun x => (x, x)) := by
  constructor
  · intro k v h
    obtain ⟨hvk, hmem⟩ := alLookup_seed inputs k v h
    exact Or.inl ⟨hvk, by rw [hvk]; exact hb k hmem⟩
  · intro k1 k2 v h1 h2 _
    obtain ⟨h1e, _⟩ := alLookup_seed inputs k1 v h1
    obtain ⟨h2e, _⟩ := alLookup_seed inputs k2 v h2
    rw [← h1e, ← h2e]

/-- The tensor re-derivation function of a map satisfying the bookkeeping
invariant is injective on the original (pre-replay) tensor ids. -/
theorem fLook_injOn {ff c : Nat} {m : TMap} (hinv : MapInv ff c m) :
    ∀ a b : Nat, a < ff → b < ff → fLook m a = fLook m b → a = b := by
  intro a b ha hb heq
  unfold fLook at heq
  cases hma : alLookup m a with
  | none =>
    cases hmb : alLookup m b with
    | none =>
      rw [hma, hmb] at heq
      exact heq
    | some vb =>
      rw [hma, hmb] at heq
      simp only [Option.getD_some, Option.getD_none] at heq
      rcases hinv.1 b vb hmb with hl | hr
      · rw [heq, hl.1]
      · exfalso
        have hfa : ff ≤ a := by
          rw [heq]
          exact hr.1
        exact absurd hfa (Nat.not_le.mpr ha)
  | some va =>
    rw [hma] at heq
    cases hmb : alLookup m b with
    | none =>
      rw [hmb] at heq
      simp only [Option.getD_some, Option.getD_none] at heq
      rcases hinv.1 a va hma with hl | hr
      · rw [← hl.1, heq]
      · exfalso
        have hfb : ff ≤ b := by
          rw [← heq]
          exact hr.1
        exact absurd hfb (Nat.not_le.mpr hb)
    | some vb =>
      rw [hmb] at heq
      simp only [Option.getD_some, Option.getD_none] at heq
      rcases hinv.1 a va hma with hl1 | hr1
      · rcases hinv.1 b vb hmb with hl2 | hr2
        · rw [← hl1.1, heq, hl2.1]
        · exfalso
          have hfa : ff ≤ a := by
            rw [← hl1.1, heq]
            exact hr2.1
          exact absurd hfa (Nat.not_le.mpr ha)
      · rcases hinv.1 b vb hmb with hl2 | hr2
        · exfalso
          have hfb : ff ≤ b := by
            rw [← hl2.1, ← heq]
            exact hr1.1
          exact absurd hfb (Nat.not_le.mpr hb)
        · exact hinv.2 a b va hma (by rw [heq]; exact hmb) hr1.1

/-- Renaming every tensor of a trace by a function injective on the
tensor ids the trace mentions preserves the topological-order property. -/
theorem mapTrace_isTopo {f : Tensor → Tensor} {ff : Nat}
    {log : List TraceNode}
    (hbd : ∀ n ∈ log, (∀ t ∈ n.Xs, t < ff) ∧ (∀ t ∈ n.Ys, t < ff))
    (hinj : ∀ a b : Nat, a < ff → b < ff → f a = f b → a = b)
    (ht : IsTopo log) : IsTopo (mapTrace f log) := by
  constructor
  · rw [mapTrace, List.pairwise_map]
    refine List.Pairwise.imp_of_mem ?_ ht.1
    intro a b hal hbl hne
    intro t htm htb
    obtain ⟨x, hx, rfl⟩ := List.mem_map.mp htm
    obtain ⟨y, hy, hfy⟩ := List.mem_map.mp htb
    have hxy : y = x :=
      hinj y x ((hbd b hbl).2 y hy) ((hbd a hal).1 x hx) hfy
    exact hne x hx (hxy ▸ hy)
  · intro nn hnn
    rw [mapTrace] at hnn
    obtain ⟨n, hn, rfl⟩ := List.mem_map.mp hnn
    intro t htm htb
    obtain ⟨x, hx, rfl⟩ := List.mem_map.mp htm
    obtain ⟨y, hy, hfy⟩ := List.mem_map.mp htb
    have hxy : y = x :=
      hinj y x ((hbd n hn).2 y hy) ((hbd n hn).1 x hx) hfy
    exact ht.2 n hn x hx (hxy ▸ hy)

/-- The observable shape of an execution sequence: per node, the operator
identity and the input/output tensor counts. -/
def traceShape (l : List TraceNode) : List (Layer × Nat × Nat) :=
  l.map (fun n => (n.layer, n.Xs.length, n.Ys.length))

theorem traceShape_mapTrace (f : Tensor → Tensor) (l : List TraceNode) :
    traceShape (mapTrace f l) = traceShape l := by
  unfold traceShape mapTrace
  rw [List.map_map]
  apply List.map_congr_left
  intro n _
  simp [Function.comp]

/-- C1: for every acyclic input model — a depth-consistent
`_nodes_by_depth` table on the native path, a topological well-formed
invocation log on the replay path — the execution record produced by
`trace_model_execution` is a valid topological order: on the native path
after pruning, on the replay path both as rebuilt and after pruning,
every node occurs strictly after all nodes producing any of its input
tensors. -/
theorem execution_record_topological
    (groups : List (List TraceNode)) (hg : DepthOK groups)
    (outs1 : List Tensor)
    (ff : Nat) (inputs : List Tensor) (log : List TraceNode)
    (hlog : LogOK ff log) (hinp : ∀ t ∈ inputs, t < ff)
    (tr : List TraceNode) (m2 : TMap) (c2 : Nat)
    (hreb : rebuildTrace inputs ff log = some (tr, m2, c2))
    (outs2 : List Tensor) :
    IsTopo (pruneNodes outs1 (nativeExecutedNodes groups)) ∧
    IsTopo tr ∧
    IsTopo (pruneNodes outs2 tr) := by
  obtain ⟨hbd, htopo, hydisj, hnodup, hinpl⟩ := hlog
  unfold rebuildTrace at hreb
  obtain ⟨htr, _, _, hinv2, _⟩ := rebuildGo_spec ff log
    (inputs.map fun x => (x, x)) ff (le_refl ff)
    (mapInv_seed ff inputs hinp) hbd htopo.1 htopo.2 hydisj hnodup hinpl
    tr m2 c2 hreb
  have htopo2 : IsTopo tr := by
    rw [htr]
    exact mapTrace_isTopo hbd (fLook_injOn hinv2) htopo
  refine ⟨?_, htopo2, ?_⟩
  · exact isTopo_sublist (pruneNodes_sublist _ _)
      (nativeExecutedNodes_isTopo hg)
  · exact isTopo_sublist (pruneNodes_sublist _ _) htopo2

/-- A concrete three-layer model (input → dense → dense), as Keras stores
it: `_nodes_by_depth` by ascending depth key, the output layer at depth
0. -/
def cGroups : List (List TraceNode) :=
  [[⟨⟨2, false⟩, [2], [3]⟩], [⟨⟨1, false⟩, [1], [2]⟩], [⟨⟨0, true⟩, [], [1]⟩]]

/-- The invocation log of the same model, as the replay records it. -/
def cLog : List TraceNode :=
  [⟨⟨0, true⟩, [], [1]⟩, ⟨⟨1, false⟩, [1], [2]⟩, ⟨⟨2, false⟩, [2], [3]⟩]

/-- The rebuilt trace of the same model: fresh ids from `10` replace the
non-input tensors. -/
def cTr : List TraceNode :=
  [⟨⟨0, true⟩, [], [1]⟩, ⟨⟨1, false⟩, [1], [10]⟩, ⟨⟨2, false⟩, [10], [11]⟩]

/-- The final substitution map of the concrete rebuild. -/
def cM2 : TMap := [(3, 11), (2, 10), (1, 1), (1, 1)]

/-- Witness for C1 on the concrete three-layer model. -/
theorem execution_record_topological_witness :
    DepthOK cGroups ∧ LogOK 10 cLog ∧ (∀ t ∈ [1], t < 10) ∧
    rebuildTrace [1] 10 cLog = some (cTr, cM2, 12) ∧
    (IsTopo (pruneNodes [3] (nativeExecutedNodes cGroups)) ∧
     IsTopo cTr ∧ IsTopo (pruneNodes [11] cTr)) :=
  ⟨by decide, by decide, by decide, by decide,
   execution_record_topological cGroups (by decide) [3] 10 [1] cLog
     (by decide) (by decide) cTr cM2 12 (by decide) [11]⟩

/-- C7: for a model with no nested containers, the native depth-index
path and the replay path forced on the same model (feeding the native
log through the re-application loop) produce execution sequences of
identical shape: the same operator in the same position with the same
input and output tensor counts. -/
theorem native_replay_equivalence
    (groups : List (List TraceNode)) (ff : Nat) (inputs : List Tensor)
    (hlog : LogOK ff (nativeExecutedNodes groups))
    (hinp : ∀ t ∈ inputs, t < ff)
    (tr : List TraceNode) (m2 : TMap) (c2 : Nat)
    (hreb : rebuildTrace inputs ff (nativeExecutedNodes groups) =
      some (tr, m2, c2)) :
    traceShape tr = traceShape (nativeExecutedNodes groups) := by
  obtain ⟨hbd, htopo, hydisj, hnodup, hinpl⟩ := hlog
  unfold rebuildTrace at hreb
  obtain ⟨htr, _, _, _, _⟩ := rebuildGo_spec ff (nativeExecutedNodes groups)
    (inputs.map fun x => (x, x)) ff (le_refl ff)
    (mapInv_seed ff inputs hinp) hbd htopo.1 htopo.2 hydisj hnodup hinpl
    tr m2 c2 hreb
  rw [htr, traceShape_mapTrace]

/-- Witness for C7 on the concrete three-layer model. -/
theorem native_replay_equivalence_witness :
    LogOK 10 (nativeExecutedNodes cGroups) ∧ (∀ t ∈ [1], t < 10) ∧
    rebuildTrace [1] 10 (nativeExecutedNodes cGroups) =
      some (cTr, cM2, 12) ∧
    traceShape cTr = traceShape (nativeExecutedNodes cGroups) :=
  ⟨by decide, by decide, by decide,
   native_replay_equivalence cGroups 10 [1] (by decide) (by decide)
     cTr cM2 12 (by decide)⟩

/-- Witness for C5: on the two-operator chain, the interior tensor `1`
is marked a bottleneck. -/
theorem bottleneck_diamond_chain_witness :
    1 ≤ 2 ∧ (1 : Nat) ≤ 1 ∧
    ∃ res, get_bottleneck_tensors [0] [2] (chainExec 2) = some res ∧
      (1 : Nat) ∈ res :=
  ⟨by decide, by decide,
   bottleneck_diamond_chain.2.2 2 (by decide) 1 (by decide) (by decide)⟩

/-- Witness for the amended C3 statement: the two-producer trace is
topologically ordered and the construction succeeds on it — no
"more than one creating node" error despite the duplicated producer. -/
theorem creator_check_characterization_witness :
    IsTopo twoProducerTrace ∧
    (get_model_execution_trace_lookups false twoProducerTrace).isSome
      = true :=
  ⟨by decide,
   creator_check_characterization.2 false twoProducerTrace (by decide)⟩

/-- A concrete mapping registry: layer id `5` resolves to a stateful
mapping class `42`; everything else is unresolved. -/
def cResolve : Layer → Option RMapSpec :=
  fun l => if l.lid == 5 then some (RMapSpec.mappingClass 42) else none

/-- Witness for C8: with two distinct layers and a stateful mapping on
layer `5`, that layer's handler object is constructed exactly once. -/
theorem handler_resolution_once_witness :
    ([(⟨5, false⟩ : Layer), ⟨7, false⟩].Nodup) ∧
    ((⟨5, false⟩ : Layer) ∈ [(⟨5, false⟩ : Layer), ⟨7, false⟩]) ∧
    cResolve ⟨5, false⟩ = some (RMapSpec.mappingClass 42) ∧
    (((initializeReverseMappings cResolve none
        [⟨5, false⟩, ⟨7, false⟩] 0).2.1.filter
      (fun p => p.1 == (⟨5, false⟩ : Layer))).length = 1) :=
  ⟨by decide, by decide, by decide,
   (handler_resolution_once cResolve none [⟨5, false⟩, ⟨7, false⟩]
     ⟨5, false⟩ 42 (by decide) (by decide) (by decide)).1⟩

end Innvestigate
